import Mathlib

/-!
Verification development for the pango LUT-stitcher pass
(`stitcher_pango.cc` / its later revisions).

The C++ pass merges pairs of single-output `GTP_LUTk` cells into dual-output
`GTP_LUT6D` cells.  This file gives a shallow embedding of the pass's data
model and algorithms and proves (or refutes) the specification claims about
them.  The embedding follows the most recent revision of the source (the one
with `NumberLutsByLevel`, `FindMergeCandidates_Global`,
`FindMergeCandidates_Layered`, `CanLut6AbsorbLutS` and the plan/commit split
in `StitcherMain`).

Modelling conventions:
* `RTLIL::SigBit` becomes `Sig`: a canonical wire bit (post-`SigMap`
  signals are already canonical representatives) or one of the constant
  states `S0`, `S1`, `Sx`.
* `RTLIL::Const` truth tables become `List Bool` (bit `i` of the table is
  entry `i` of the list); designs considered here carry fully defined 0/1
  `INIT` parameters.
* Machine integers (`uint64_t`, `int`) become `Nat` / `Int`; 64-bit
  bitwise complement is modelled as xor against `2^64 - 1`.
* The `map<string, SigBit> ordered_inputs` (keyed by the port names
  `I0` … `I9`, single digit, so lexicographic key order is numeric port
  order, and absent ports are simply missing) becomes the list of the
  present ports' signals in increasing port order; positional weight in
  every address computation follows list position exactly as the C++
  iteration order does.
-/

set_option maxHeartbeats 1600000
set_option maxRecDepth 16000

namespace PangoStitcher

/-- A canonical signal bit: a wire (identified by a numeric id after
canonicalization) or one of the RTLIL constant states. -/
inductive Sig where
  | wire (n : Nat)
  | S0
  | S1
  | Sx
deriving DecidableEq, Repr

/-- `LutInfo` from the source: arity (from the cell type suffix), present
input signals in port order, output signal, INIT truth table, claimed flag.
`name` stands for the cell's `IdString` name (modelled as a number). -/
structure LutInfo where
  name : Nat := 0
  size : Nat := 0
  ordered_inputs : List Sig := []
  output : Sig := Sig.Sx
  init_val : List Bool := []
  is_merged : Bool := false
deriving DecidableEq, Repr

instance : Inhabited LutInfo := ⟨{}⟩

/-- The lambda `lut_has_input` inside `calculate_new_init`: does the LUT have
`s` among its connected input signals? -/
def lutHasInput (lut : LutInfo) (s : Sig) : Bool :=
  lut.ordered_inputs.contains s

/-- Address accumulation loop of the Z5 half of `calculate_new_init`: walk the
source LUT's ports in order with doubling weight `bitPos`; a port whose signal
occurs in the five shared slots contributes bit `sharedIdx` of `i` at weight
`bitPos`; a port not found contributes 0. -/
def z5AddrGo (shared : List Sig) (i : Nat) : List Sig → Nat → Nat
  | [], _ => 0
  | p :: ps, bitPos =>
    (match shared.findIdx? (fun x => x = p) with
     | some j => if i.testBit j then bitPos else 0
     | none => 0) + z5AddrGo shared i ps (bitPos * 2)

/-- Address accumulation loop of the Z half of `calculate_new_init`: as
`z5AddrGo`, except a port that is not in the shared slots but equals the
selector contributes weight `bitPos` unconditionally (the selector is forced
to 1). -/
def zAddrGo (shared : List Sig) (sel : Sig) (i : Nat) : List Sig → Nat → Nat
  | [], _ => 0
  | p :: ps, bitPos =>
    (match shared.findIdx? (fun x => x = p) with
     | some j => if i.testBit j then bitPos else 0
     | none => if p = sel then bitPos else 0) + zAddrGo shared sel i ps (bitPos * 2)

/-- `calculate_new_init`: fused 64-bit INIT plus the two output targets
`(z_out_sig, z5_out_sig)`.  The source LUT that does not use the selector
feeds the low (Z5, selector = 0) half, the other feeds the high (Z,
selector = 1) half with the selector's address bit forced to 1.  Table
lookups out of range fall back to 0 exactly as in the source. -/
def calculate_new_init (lut_a lut_b : LutInfo) (new_inputs_vec : List Sig)
    (sel_bit : Sig) : List Bool × Sig × Sig :=
  let lut_for_z5 := if lutHasInput lut_a sel_bit then lut_b else lut_a
  let lut_for_z_sel1 := if lutHasInput lut_a sel_bit then lut_a else lut_b
  let shared := new_inputs_vec.take 5
  let z5_bits := (List.range 32).map (fun i =>
    lut_for_z5.init_val.getD (z5AddrGo shared i lut_for_z5.ordered_inputs 1) false)
  let z_bits := (List.range 32).map (fun i =>
    lut_for_z_sel1.init_val.getD
      (zAddrGo shared sel_bit i lut_for_z_sel1.ordered_inputs 1) false)
  (z5_bits ++ z_bits, lut_for_z_sel1.output, lut_for_z5.output)

/-! ### Specification-side LUT semantics

From the spec's data model: "truth table (2^k bits, bit i = output for input
assignment i, bit j of i selects input port j)".  These definitions give the
original Boolean function of a collected LUT under an assignment of Boolean
values to signals; the exactness claims compare the fused table against
them. -/

/-- Address of a LUT row under an assignment `env` of values to signals:
the present ports in order contribute their doubling positional weight when
their signal is assigned true. -/
def portsAddr (env : Sig → Bool) : List Sig → Nat → Nat
  | [], _ => 0
  | p :: ps, bitPos => (if env p then bitPos else 0) + portsAddr env ps (bitPos * 2)

/-- The original output of a source LUT for a Boolean assignment to its
inputs (spec data model semantics of a `GTP_LUTk` cell). -/
def lutEval (lut : LutInfo) (env : Sig → Bool) : Bool :=
  lut.init_val.getD (portsAddr env lut.ordered_inputs 1) false

/-- Encode an assignment of the union slots as the fused address `i`:
slot `j` of the list carries bit `j`. -/
def encodeAssign (env : Sig → Bool) : List Sig → Nat
  | [] => 0
  | s :: ss => (if env s then 1 else 0) + 2 * encodeAssign env ss

/-! ### 64-bit truth-table helpers of the ABSORB path -/

/-- `const_to_uint64`: the low 64 table bits as a natural number. -/
def constToUint64 (c : List Bool) : Nat :=
  ((List.range 64).map (fun i => if c.getD i false then 2 ^ i else 0)).sum

/-- The six canonical single-variable 64-bit masks of `get_input_mask`. -/
def inputMasks : List Nat :=
  [0xAAAAAAAAAAAAAAAA, 0xCCCCCCCCCCCCCCCC, 0xF0F0F0F0F0F0F0F0,
   0xFF00FF00FF00FF00, 0xFFFF0000FFFF0000, 0xFFFFFFFF00000000]

/-- `get_input_mask`: mask of the first port position carrying `target` in the
6-LUT's ordered inputs, 0 when not found. -/
def getInputMask (ordered_inputs_6 : List Sig) (target : Sig) : Nat :=
  match ordered_inputs_6.findIdx? (fun x => x = target) with
  | some j => inputMasks.getD j 0
  | none => 0

/-- All 64 bits set; `~x` on `uint64_t` is modelled as `allOnes64 ^^^ x`. -/
def allOnes64 : Nat := 0xFFFFFFFFFFFFFFFF

/-- The per-row conjunction of alternating masks built inside
`CanLut6AbsorbLutS`: constrain every port of the small LUT to match the bits
of row `i`. -/
def targetMaskGo (inputs6 : List Sig) (i : Nat) : List Sig → Nat → Nat → Nat
  | [], _, acc => acc
  | p :: ps, k, acc =>
    let m := getInputMask inputs6 p
    let acc' := if i.testBit k then acc &&& m else acc &&& (allOnes64 ^^^ m)
    targetMaskGo inputs6 i ps (k + 1) acc'

/-- Expansion of the small LUT's table to the 6-LUT's 64-bit address space:
OR of the row masks of all 1-rows. -/
def expandSmallTT (lut_6 lut_s : LutInfo) : Nat :=
  ((List.range (2 ^ lut_s.size)).map (fun i =>
    if (constToUint64 lut_s.init_val).testBit i then
      targetMaskGo lut_6.ordered_inputs i lut_s.ordered_inputs 0 allOnes64
    else 0)).foldl (· ||| ·) 0

/-- `CanLut6AbsorbLutS`: find the unique input of the 6-LUT not used by the
small LUT; expand the small table; accept when the two tables agree on the
selector-0 half or on the selector-1 half.  Returns the discovered selector
on success (the C++ bool result plus `found_sel_bit` out-parameter). -/
def CanLut6AbsorbLutS (lut_6 lut_s : LutInfo) : Option Sig :=
  let potential := lut_6.ordered_inputs.filter
    (fun s => ¬ lut_s.ordered_inputs.contains s)
  match potential with
  | [sel] =>
    let s_expanded_tt := expandSmallTT lut_6 lut_s
    let sel_mask := getInputMask lut_6.ordered_inputs sel
    let tt_6 := constToUint64 lut_6.init_val
    let sel_is_0_match :=
      tt_6 &&& (allOnes64 ^^^ sel_mask) = s_expanded_tt &&& (allOnes64 ^^^ sel_mask)
    let sel_is_1_match := tt_6 &&& sel_mask = s_expanded_tt &&& sel_mask
    if sel_is_0_match ∨ sel_is_1_match then some sel else none
  | _ => none

/-! ### Topological leveling (`NumberLutsByLevel`)

The C++ builds `output_sig_to_lut` (a dict written in list order, so a later
LUT with the same output overwrites an earlier one), the successor sets and
in-degrees (counting each distinct driving LUT once), and then runs a
Kahn-style queue.  The `while` loop is embedded with explicit fuel; a
theorem below shows the canonical fuel always empties the queue, which is
the shallow form of the loop's termination.  The C++ `processed_count`
counter is modelled as the length of the recorded dequeue sequence. -/

/-- Generic Yosys-pool insertion: keep first occurrence, preserve order. -/
def pIns {α : Type} [DecidableEq α] (l : List α) (s : α) : List α :=
  if s ∈ l then l else l ++ [s]

/-- `output_sig_to_lut` lookup: the index of the LUT driving signal `s`
(the last writer wins, as for repeated dict assignment in list order). -/
def driverOf (luts : List LutInfo) (s : Sig) : Option Nat :=
  (List.range luts.length).foldl
    (fun acc u => if (luts.getD u default).output = s then some u else acc) none

/-- The distinct LUT predecessors of `v`: drivers of its input signals, each
counted once (the pool-guarded edge insertion). -/
def predsOf (luts : List LutInfo) (v : Nat) : List Nat :=
  (((luts.getD v default).ordered_inputs).filterMap (driverOf luts)).foldl pIns []

/-- The successor list of `u` (`lut_graph[u]`), in index order. -/
def succsOf (luts : List LutInfo) (u : Nat) : List Nat :=
  (List.range luts.length).filter (fun v => decide (u ∈ predsOf luts v))

/-- Kahn state: assigned levels (`lut_levels`), remaining in-degrees, the
FIFO queue, and the sequence of dequeued nodes (whose length is the C++
`processed_count`). -/
structure KState where
  level : Nat → Option Nat
  indeg : Nat → Int
  queue : List Nat
  dequeued : List Nat

/-- Initial Kahn state: in-degrees from the distinct-predecessor counts;
every in-degree-0 LUT is seeded into the queue at level 0. -/
def initKState (luts : List LutInfo) : KState where
  level := fun v =>
    if v < luts.length ∧ (predsOf luts v).length = 0 then some 0 else none
  indeg := fun v => ((predsOf luts v).length : Int)
  queue := (List.range luts.length).filter (fun v => (predsOf luts v).length = 0)
  dequeued := []

/-- Handling of one successor `v` of the dequeued node: raise its level to
`lvl + 1` when unassigned or smaller, decrement its in-degree, enqueue it
when the in-degree reaches zero. -/
def processOne (lvl : Nat) (st : KState) (v : Nat) : KState where
  level := Function.update st.level v
    (match st.level v with
     | none => some (lvl + 1)
     | some old => if old < lvl + 1 then some (lvl + 1) else some old)
  indeg := Function.update st.indeg v (st.indeg v - 1)
  queue := if st.indeg v - 1 = 0 then st.queue ++ [v] else st.queue
  dequeued := st.dequeued

/-- Fold `processOne` over the successor list of the dequeued node. -/
def processSuccs (lvl : Nat) (st : KState) : List Nat → KState
  | [] => st
  | v :: vs => processSuccs lvl (processOne lvl st v) vs

/-- One iteration of the `while (!q.empty())` loop body after popping `u`:
record the dequeue, read `current_level = lut_levels.at(u)` (assigned for
every queued node; `getD 0` stands for the `.at` access), and process the
successors. -/
def kahnStep (luts : List LutInfo) (st : KState) (u : Nat) (rest : List Nat) :
    KState :=
  processSuccs ((st.level u).getD 0)
    { st with queue := rest, dequeued := st.dequeued ++ [u] } (succsOf luts u)

/-- The fueled Kahn loop. -/
def kahnLoopF (luts : List LutInfo) : Nat → KState → KState
  | 0, st => st
  | fuel + 1, st =>
    match st.queue with
    | [] => st
    | u :: rest => kahnLoopF luts fuel (kahnStep luts st u rest)

/-- Canonical fuel: total in-degree plus the LUT count; shown sufficient to
empty the queue below. -/
def kahnFuel (luts : List LutInfo) : Nat :=
  (∑ v ∈ Finset.range luts.length, (predsOf luts v).length) + luts.length

/-- `NumberLutsByLevel`: the final Kahn state. -/
def kahnRun (luts : List LutInfo) : KState :=
  kahnLoopF luts (kahnFuel luts) (initKState luts)

/-- The `processed_count != luts.size()` combinational-loop warning. -/
def levelingWarning (luts : List LutInfo) : Bool :=
  (kahnRun luts).dequeued.length ≠ luts.length

/-- The `(index, level)` pairs of all LUTs that received a level entry
(`lut_levels.count(cell_ptr)` in the partition loop of `StitcherMain`). -/
def leveledPairs (luts : List LutInfo) : List (Nat × Nat) :=
  (List.range luts.length).filterMap
    (fun i => ((kahnRun luts).level i).map (fun l => (i, l)))

/-- `level_to_lut_indices[l]`: the leveled LUT indices of level `l`, in
index order. -/
def levelBucket (luts : List LutInfo) (l : Nat) : List Nat :=
  ((leveledPairs luts).filter (fun p => p.2 = l)).map (fun p => p.1)

/-- The largest assigned level (0 when none), bounding the bucket scan. -/
def maxAssignedLevel (luts : List LutInfo) : Nat :=
  ((leveledPairs luts).map (fun p => p.2)).foldl max 0

/-! ### Candidate search -/

/-- The two legality classes of `enum class MergeType`. -/
inductive MergeType where
  | SHARED_INPUTS
  | LUT6_ABSORB
deriving DecidableEq, Repr

/-- `MergeCandidate`: indices of the two LUTs, score, union-of-inputs pool
(modelled as the insertion-ordered duplicate-free list the Yosys `pool`
iterates as), type, and the discovered selector (only for `LUT6_ABSORB`;
`Sx` otherwise as in the source). -/
structure MergeCandidate where
  idx_a : Nat
  idx_b : Nat
  score : Int
  union_inputs : List Sig
  mtype : MergeType
  discovered_sel_bit : Sig
deriving DecidableEq, Repr

/-- The union pool of the two LUTs' input signals (`current_union_inputs`). -/
def unionInputs (lut_a lut_b : LutInfo) : List Sig :=
  (lut_a.ordered_inputs ++ lut_b.ordered_inputs).foldl pIns []

/-- `shared_inputs = (size_a + size_b) - union.size()` as the C++ `int`. -/
def sharedCount (lut_a lut_b : LutInfo) : Int :=
  (lut_a.size : Int) + (lut_b.size : Int) - ((unionInputs lut_a lut_b).length : Int)

/-- The SHARED_INPUTS test of `FindMergeCandidates_Global` on one pair
`(i, j)`: push a candidate when the union has at most 6 signals and the
shared count is at most 5 (the source's inner `size() <= 6` re-check is
redundant and collapsed here); score = shared*100 - union size. -/
def checkSharedGlobal (luts : List LutInfo) (i j : Nat) : Option MergeCandidate :=
  let lut_a := luts.getD i default
  let lut_b := luts.getD j default
  let u := unionInputs lut_a lut_b
  let sh := sharedCount lut_a lut_b
  if u.length ≤ 6 ∧ sh ≤ 5 then
    some ⟨i, j, sh * 100 - u.length, u, MergeType.SHARED_INPUTS, Sig.Sx⟩
  else none

/-- The `check_shared_inputs` lambda of `FindMergeCandidates_Layered`: union
size at most 5 and at least one shared input. -/
def checkSharedLayered (luts : List LutInfo) (i j : Nat) : Option MergeCandidate :=
  let lut_a := luts.getD i default
  let lut_b := luts.getD j default
  let u := unionInputs lut_a lut_b
  if u.length ≤ 5 then
    let sh := sharedCount lut_a lut_b
    if 1 ≤ sh then
      some ⟨i, j, sh * 100 - u.length, u, MergeType.SHARED_INPUTS, Sig.Sx⟩
    else none
  else none

/-- Subset test used before `CanLut6AbsorbLutS`: every input signal of the
small LUT occurs among the 6-LUT's input signals. -/
def inputsSubset (lut_s lut_6 : LutInfo) : Bool :=
  lut_s.ordered_inputs.all (fun s => lut_6.ordered_inputs.contains s)

/-- The input pool of one LUT (the `inputs_6` pool stored in an ABSORB
candidate as its union field). -/
def inputsPool (lut : LutInfo) : List Sig :=
  lut.ordered_inputs.foldl pIns []

/-- The `check_lut6_absorb` lambda of `FindMergeCandidates_Layered`:
sizes must be 6 and strictly less than 6, inputs a subset, and
`CanLut6AbsorbLutS` must succeed; score = 10000 + size_s*100. -/
def checkAbsorbLayered (luts : List LutInfo) (idx_6 idx_s : Nat) :
    Option MergeCandidate :=
  let lut_6 := luts.getD idx_6 default
  let lut_s := luts.getD idx_s default
  if lut_6.size = 6 ∧ lut_s.size < 6 then
    if inputsSubset lut_s lut_6 then
      match CanLut6AbsorbLutS lut_6 lut_s with
      | some sel =>
        some ⟨idx_6, idx_s, 10000 + (lut_s.size : Int) * 100, inputsPool lut_6,
          MergeType.LUT6_ABSORB, sel⟩
      | none => none
    else none
  else none

/-- The ABSORB test of `FindMergeCandidates_Global` on one ordered pair
`(i, j)`: only `luts[i].size == 6` and `i ≠ j` are required (the absorbed
LUT's own arity is not checked in this strategy), then the subset test and
`CanLut6AbsorbLutS`. -/
def checkAbsorbGlobal (luts : List LutInfo) (i j : Nat) : Option MergeCandidate :=
  let lut_6 := luts.getD i default
  let lut_s := luts.getD j default
  if lut_6.size = 6 ∧ i ≠ j then
    if inputsSubset lut_s lut_6 then
      match CanLut6AbsorbLutS lut_6 lut_s with
      | some sel =>
        some ⟨i, j, 10000 + (lut_s.size : Int) * 100, inputsPool lut_6,
          MergeType.LUT6_ABSORB, sel⟩
      | none => none
    else none
  else none

/-- `FindMergeCandidates_Global`: first the SHARED pass over all unordered
pairs `i < j`, then the ABSORB pass over all ordered pairs with
`luts[i].size == 6`. -/
def FindMergeCandidates_Global (luts : List LutInfo) : List MergeCandidate :=
  let n := luts.length
  ((List.range n).flatMap (fun i =>
    ((List.range n).drop (i + 1)).filterMap (fun j => checkSharedGlobal luts i j)))
  ++ ((List.range n).flatMap (fun i =>
    (List.range n).filterMap (fun j => checkAbsorbGlobal luts i j)))

/-- All candidates a tested unordered pair `(a, b)` contributes in the
layered strategy: the SHARED test plus both ABSORB orientations. -/
def layeredPairChecks (luts : List LutInfo) (a b : Nat) : List MergeCandidate :=
  (checkSharedLayered luts a b).toList ++ (checkAbsorbLayered luts a b).toList
    ++ (checkAbsorbLayered luts b a).toList

/-- `FindMergeCandidates_Layered`: for each level in ascending order, test
all pairs within the level's bucket and all pairs against the next level's
bucket (an absent next level is an empty bucket, producing nothing, matching
the `count(level + 1)` guard). -/
def FindMergeCandidates_Layered (luts : List LutInfo) : List MergeCandidate :=
  (List.range (maxAssignedLevel luts + 1)).flatMap (fun l =>
    let cur := levelBucket luts l
    let nxt := levelBucket luts (l + 1)
    ((List.range cur.length).flatMap (fun i =>
      ((List.range cur.length).drop (i + 1)).flatMap (fun j =>
        layeredPairChecks luts (cur.getD i 0) (cur.getD j 0))))
    ++ (cur.flatMap (fun a => nxt.flatMap (fun b => layeredPairChecks luts a b))))

/-! ### Merge planning (`PlanMerges`) -/

/-- `MergePlan`: the pure, pointer-free plan record.  The two source indices
are carried alongside the stored cell names (the C++ plan stores only the
names; the indices are the planner-side identities the conservation claim
speaks about).  `new_name` stands for the uniquified
`<a>_<b>_merged` identifier, modelled by an injective pairing of the two
source names. -/
structure MergePlan where
  idx_a : Nat
  idx_b : Nat
  name_a : Nat
  name_b : Nat
  new_name : Nat
  init_val : List Bool
  ports : List Sig
  z_out : Sig
  z5_out : Sig
deriving DecidableEq, Repr

/-- `iter_swap(sel_it, new_inputs_vec.end() - 1)` after `find`: swap the
first occurrence of `sel` with the last element; identity when absent. -/
def swapToLast (l : List Sig) (sel : Sig) : List Sig :=
  match l.findIdx? (fun x => x = sel) with
  | some j =>
    (l.set j (l.getD (l.length - 1) Sig.S0)).set (l.length - 1) (l.getD j Sig.S0)
  | none => l

/-- The per-candidate construction of `new_inputs_vec` and `sel_bit` in
`PlanMerges`: SHARED pads the union pool with constant 0 up to five slots and
appends constant 1 as the selector; ABSORB takes the 6-LUT's inputs and moves
the discovered selector to the last slot. -/
def buildPlanInputs (lut_a lut_b : LutInfo) (c : MergeCandidate) :
    List Sig × Sig :=
  match c.mtype with
  | MergeType.SHARED_INPUTS =>
    ((c.union_inputs ++ List.replicate (5 - c.union_inputs.length) Sig.S0)
      ++ [Sig.S1], Sig.S1)
  | MergeType.LUT6_ABSORB =>
    let lut_6 := if lut_a.size = 6 then lut_a else lut_b
    (swapToLast lut_6.ordered_inputs c.discovered_sel_bit, c.discovered_sel_bit)

/-- The plan record built for an accepted candidate (ports `I0` … `I5` read
`new_inputs_vec[k]`; a vector shorter than 6 — impossible for well-formed
inputs — defaults to constant 0). -/
def planOf (lut_a lut_b : LutInfo) (c : MergeCandidate) : MergePlan :=
  let vs := buildPlanInputs lut_a lut_b c
  let r := calculate_new_init lut_a lut_b vs.1 vs.2
  { idx_a := c.idx_a, idx_b := c.idx_b,
    name_a := lut_a.name, name_b := lut_b.name,
    new_name := Nat.pair lut_a.name lut_b.name,
    init_val := r.1,
    ports := (List.range 6).map (fun k => vs.1.getD k Sig.S0),
    z_out := r.2.1, z5_out := r.2.2 }

/-- The `PlanMerges` loop over the candidates in pop order: skip a candidate
when either LUT is claimed, otherwise claim both and emit the plan. -/
def planMergesGo :
    List MergeCandidate → List LutInfo → List MergePlan →
      List LutInfo × List MergePlan
  | [], luts, plans => (luts, plans)
  | c :: rest, luts, plans =>
    let lut_a := luts.getD c.idx_a default
    let lut_b := luts.getD c.idx_b default
    if lut_a.is_merged ∨ lut_b.is_merged then planMergesGo rest luts plans
    else
      planMergesGo rest
        ((luts.set c.idx_a { lut_a with is_merged := true }).set c.idx_b
          { lut_b with is_merged := true })
        (plans ++ [planOf lut_a lut_b c])

/-- Insert a candidate into a score-descending list (strictly-greater
scores stay in front). -/
def insertByScore (c : MergeCandidate) :
    List MergeCandidate → List MergeCandidate
  | [] => [c]
  | d :: ds => if d.score < c.score then c :: d :: ds else d :: insertByScore c ds

/-- The pop order of the score-keyed `priority_queue`: descending score
(ties are popped in an unspecified order; this embedding fixes one). -/
def popOrder (cands : List MergeCandidate) : List MergeCandidate :=
  cands.foldr insertByScore []

/-- `PlanMerges` proper. -/
def PlanMerges (luts : List LutInfo) (cands : List MergeCandidate) :
    List LutInfo × List MergePlan :=
  planMergesGo (popOrder cands) luts []

/-! ### The module, collection, and the two-phase commit -/

/-- Cell types relevant to the pass: single-output `GTP_LUTk` (the
`strncmp`/length test of `CollectLuts`), the fused `GTP_LUT6D`, anything
else. -/
inductive CellType where
  | gtpLut (k : Nat)
  | gtpLut6d
  | other
deriving DecidableEq, Repr

/-- A netlist cell: name, type, INIT parameter, the connected `I<k>` input
ports (absent ports simply missing), and the `Z` / `Z5` output ports. -/
structure Cell where
  name : Nat
  ctype : CellType
  init_val : List Bool := []
  iports : List (Nat × Sig) := []
  zport : Sig := Sig.Sx
  z5port : Sig := Sig.Sx
deriving DecidableEq, Repr

/-- A module is its cell list. -/
abbrev Module := List Cell

/-- `CollectLuts`: one `LutInfo` per `GTP_LUTk` cell; ports `I0` … `I(k-1)`
read in index order, absent ports omitted; signals are the canonicalized
connections. -/
def CollectLuts (m : Module) : List LutInfo :=
  m.filterMap (fun cell =>
    match cell.ctype with
    | CellType.gtpLut k =>
      some { name := cell.name, size := k,
             ordered_inputs := (List.range k).filterMap (fun i =>
               (cell.iports.find? (fun p => p.1 == i)).map (fun p => p.2)),
             output := cell.zport, init_val := cell.init_val,
             is_merged := false }
    | _ => none)

/-- Primitive mutation events of the commit phase. -/
inductive Op where
  | rem (name : Nat)
  | add (name : Nat)
deriving DecidableEq, Repr

/-- Is the op a removal? -/
def Op.isRem : Op → Bool
  | Op.rem _ => true
  | Op.add _ => false

/-- The `cell_names_to_remove` pool: both names of every plan, first
occurrence kept. -/
def removeNames (plans : List MergePlan) : List Nat :=
  plans.foldl (fun acc p => pIns (pIns acc p.name_a) p.name_b) []

/-- `module->cell(name) != nullptr`. -/
def moduleHasCell (m : Module) (nm : Nat) : Bool :=
  m.any (fun c => c.name = nm)

/-- The removal loop: for each name to remove, erase the cell when present
(recording a `rem` event), silently skip when absent. -/
def execRemovals : List Nat → Module → List Op → Module × List Op
  | [], m, ops => (m, ops)
  | nm :: rest, m, ops =>
    if moduleHasCell m nm then
      execRemovals rest (m.eraseP (fun c => c.name = nm)) (ops ++ [Op.rem nm])
    else execRemovals rest m ops

/-- The fused `GTP_LUT6D` cell instantiated for a plan. -/
def fusedCellOf (p : MergePlan) : Cell :=
  { name := p.new_name, ctype := CellType.gtpLut6d, init_val := p.init_val,
    iports := (List.range 6).map (fun k => (k, p.ports.getD k Sig.S0)),
    zport := p.z_out, z5port := p.z5_out }

/-- The addition loop: instantiate each plan's fused cell. -/
def execAdds : List MergePlan → Module → List Op → Module × List Op
  | [], m, ops => (m, ops)
  | p :: rest, m, ops =>
    execAdds rest (m ++ [fusedCellOf p]) (ops ++ [Op.add p.new_name])

/-- Step 5 of `StitcherMain`: remove all named original cells first, then add
all fused cells; the op list records the order of the mutations. -/
def commitModule (m : Module) (plans : List MergePlan) : Module × List Op :=
  let r := execRemovals (removeNames plans) m []
  execAdds plans r.1 r.2

/-- The count logged by `Performed %zu merges successfully`. -/
def reportedMerges (plans : List MergePlan) : Nat := plans.length

/-- `LAYERED_SEARCH_THRESHOLD`. -/
def LAYERED_SEARCH_THRESHOLD : Nat := 30000

/-- `StitcherMain`'s effect on the module: collect, search (global or
layered by the threshold), plan, and — only when at least one plan exists —
commit; with no plans the function returns before the mutation phase. -/
def stitcherCandidates (m : Module) : List MergeCandidate :=
  if (CollectLuts m).length ≤ LAYERED_SEARCH_THRESHOLD then
    FindMergeCandidates_Global (CollectLuts m)
  else FindMergeCandidates_Layered (CollectLuts m)

/-- The plans `StitcherMain` obtains from step 4. -/
def stitcherPlans (m : Module) : List MergePlan :=
  (PlanMerges (CollectLuts m) (stitcherCandidates m)).2

/-- `StitcherMain`'s effect on the module: collect, search, plan, and — only
when at least one plan exists — commit; with no plans the function returns
before the mutation phase. -/
def StitcherMain (m : Module) : Module :=
  if stitcherPlans m = [] then m else (commitModule m (stitcherPlans m)).1

/-! ## Dual-output cell semantics (spec side)

From the spec's glossary: the fused `GTP_LUT6D` computes `Z` over all six
address lines (`INIT` bit at the 6-bit address) and `Z5` over the low five
(`INIT` low half). -/

/-- `Z` output of a fused cell with table `init` at a 6-bit address. -/
def lut6dZ (init : List Bool) (addr : Nat) : Bool := init.getD addr false

/-- `Z5` output of a fused cell at a 5-bit address (low table half). -/
def lut6dZ5 (init : List Bool) (addr5 : Nat) : Bool := init.getD (addr5 % 32) false

/-! ## Concrete fixtures used by witnesses and counterexamples -/

/-- 1-input identity LUT on wire 0. -/
def lutIdX : LutInfo :=
  { name := 16, size := 1, ordered_inputs := [Sig.wire 0],
    output := Sig.wire 30, init_val := [false, true] }

/-- 1-input inverter LUT on wire 1. -/
def lutNotY : LutInfo :=
  { name := 17, size := 1, ordered_inputs := [Sig.wire 1],
    output := Sig.wire 31, init_val := [true, false] }

/-- 6-input LUT on wires 0–5 with an all-zero table. -/
def lutW6 : LutInfo :=
  { name := 12, size := 6,
    ordered_inputs := [Sig.wire 0, Sig.wire 1, Sig.wire 2, Sig.wire 3,
      Sig.wire 4, Sig.wire 5],
    output := Sig.wire 22, init_val := List.replicate 64 false }

/-- Arity-6 LUT whose six ports carry only the five distinct wires 0–4
(port I5 repeats wire 0), all-zero table. -/
def lutDup6 : LutInfo :=
  { name := 13, size := 6,
    ordered_inputs := [Sig.wire 0, Sig.wire 1, Sig.wire 2, Sig.wire 3,
      Sig.wire 4, Sig.wire 0],
    output := Sig.wire 23, init_val := List.replicate 64 false }

/-- 1-input LUT on wire 0 (used to build a union of size 6 with `lutW6`). -/
def lutOne : LutInfo :=
  { name := 15, size := 1, ordered_inputs := [Sig.wire 0],
    output := Sig.wire 25, init_val := [false, true] }

/-- 6-input LUT computing NOT of its sixth input (wire 5). -/
def lutNotI5 : LutInfo :=
  { name := 10, size := 6,
    ordered_inputs := [Sig.wire 0, Sig.wire 1, Sig.wire 2, Sig.wire 3,
      Sig.wire 4, Sig.wire 5],
    output := Sig.wire 20,
    init_val := (List.range 64).map (fun i => decide (i < 32)) }

/-- 5-input constant-0 LUT on wires 0–4. -/
def lutZero5 : LutInfo :=
  { name := 11, size := 5,
    ordered_inputs := [Sig.wire 0, Sig.wire 1, Sig.wire 2, Sig.wire 3,
      Sig.wire 4],
    output := Sig.wire 21, init_val := List.replicate 32 false }

/-- A three-LUT design with a feedback loop: LUT 0 feeds LUT 2, and LUTs 1
and 2 feed each other (1 reads wire 2, 2 reads wires 0 and 1). -/
def lutsCyc : List LutInfo :=
  [ { name := 0, size := 1, ordered_inputs := [Sig.wire 9],
      output := Sig.wire 0, init_val := [false, true] },
    { name := 1, size := 1, ordered_inputs := [Sig.wire 2],
      output := Sig.wire 1, init_val := [false, true] },
    { name := 2, size := 2, ordered_inputs := [Sig.wire 0, Sig.wire 1],
      output := Sig.wire 2, init_val := [false, true, true, false] } ]

/-- A two-LUT chain: LUT 0 (reading primary wire 9) drives LUT 1. -/
def lutsAcyc : List LutInfo :=
  [ { name := 0, size := 1, ordered_inputs := [Sig.wire 9],
      output := Sig.wire 0, init_val := [false, true] },
    { name := 1, size := 1, ordered_inputs := [Sig.wire 0],
      output := Sig.wire 1, init_val := [true, false] } ]

/-! ## Dependency graph notions (spec side) -/

/-- A LUT-to-LUT dependency edge `u → v`: `u`'s canonical output is one of
`v`'s canonical inputs. -/
def depEdge (luts : List LutInfo) (u v : Nat) : Prop :=
  u < luts.length ∧ v < luts.length ∧
    (luts.getD u default).output ∈ (luts.getD v default).ordered_inputs

/-- A chain of `k` dependency edges ending at `v`. -/
inductive ChainTo (luts : List LutInfo) : Nat → Nat → Prop where
  | base (v : Nat) : ChainTo luts v 0
  | step {u v k : Nat} : depEdge luts u v → ChainTo luts u k → ChainTo luts v (k + 1)

/-- A chain of `k` edges of the graph as built by `NumberLutsByLevel`
(predecessor membership in the pool-built edge sets), ending at `v`. -/
inductive ChainToP (luts : List LutInfo) : Nat → Nat → Prop where
  | base (v : Nat) : ChainToP luts v 0
  | step {u v k : Nat} : u ∈ predsOf luts v → ChainToP luts u k →
      ChainToP luts v (k + 1)

/-- The LUT indices mentioned by a plan list, in order. -/
def planIndices (plans : List MergePlan) : List Nat :=
  plans.flatMap (fun p => [p.idx_a, p.idx_b])

instance : Inhabited MergePlan :=
  ⟨{ idx_a := 0, idx_b := 0, name_a := 0, name_b := 0, new_name := 0,
     init_val := [], ports := [], z_out := Sig.Sx, z5_out := Sig.Sx }⟩

/-- A plan fixture referencing cells 100 and 101. -/
def planFix : MergePlan :=
  { idx_a := 0, idx_b := 1, name_a := 100, name_b := 101, new_name := 102,
    init_val := List.replicate 64 false,
    ports := [Sig.wire 0, Sig.wire 1, Sig.S0, Sig.S0, Sig.S0, Sig.S1],
    z_out := Sig.wire 30, z5_out := Sig.wire 31 }

/-- A module containing the two cells named by `planFix`. -/
def modFix : Module :=
  [ { name := 100, ctype := CellType.gtpLut 1, init_val := [false, true],
      iports := [(0, Sig.wire 0)], zport := Sig.wire 30 },
    { name := 101, ctype := CellType.gtpLut 1, init_val := [true, false],
      iports := [(0, Sig.wire 1)], zport := Sig.wire 31 } ]

/-- A module with one LUT and one unrelated cell: no pair exists, so
planning yields nothing. -/
def modNoPair : Module :=
  [ { name := 200, ctype := CellType.gtpLut 2, init_val := [false, true, true, false],
      iports := [(0, Sig.wire 0), (1, Sig.wire 1)], zport := Sig.wire 40 },
    { name := 201, ctype := CellType.other } ]

/-- The SHARED candidate `FindMergeCandidates_Global` emits for the pair
`lutW6`, `lutOne` (union of all six wires 0–5). -/
def candC3 : MergeCandidate :=
  { idx_a := 0, idx_b := 1, score := 94,
    union_inputs := [Sig.wire 0, Sig.wire 1, Sig.wire 2, Sig.wire 3,
      Sig.wire 4, Sig.wire 5],
    mtype := MergeType.SHARED_INPUTS, discovered_sel_bit := Sig.Sx }

/-- A SHARED candidate for the pair `lutIdX`, `lutNotY`. -/
def candC5 : MergeCandidate :=
  { idx_a := 0, idx_b := 1, score := 198,
    union_inputs := [Sig.wire 0, Sig.wire 1],
    mtype := MergeType.SHARED_INPUTS, discovered_sel_bit := Sig.Sx }

/-- The pair of LUTs exhibiting the selector-1-only ABSORB divergence. -/
def lutsBug : List LutInfo := [lutNotI5, lutZero5]

/-- The ABSORB candidate the layered check emits for `lutsBug`. -/
def candBug : MergeCandidate :=
  { idx_a := 0, idx_b := 1, score := 10500,
    union_inputs := [Sig.wire 0, Sig.wire 1, Sig.wire 2, Sig.wire 3,
      Sig.wire 4, Sig.wire 5],
    mtype := MergeType.LUT6_ABSORB, discovered_sel_bit := Sig.wire 5 }

/-- The SHARED candidate the global check emits for `[lutIdX, lutNotY]`
(zero shared inputs, union of size 2, score -2). -/
def candShXY : MergeCandidate :=
  { idx_a := 0, idx_b := 1, score := -2,
    union_inputs := [Sig.wire 0, Sig.wire 1],
    mtype := MergeType.SHARED_INPUTS, discovered_sel_bit := Sig.Sx }

/-- The claimed flag of LUT record `i` in a collected list. -/
def lutFlag (luts : List LutInfo) (i : Nat) : Bool :=
  (luts.getD i default).is_merged

/-- The level update `processOne` applies to a successor: raise to
`lvl + 1` when unassigned or smaller. -/
def updLevel (lvl : Nat) : Option Nat → Option Nat
  | none => some (lvl + 1)
  | some old => if old < lvl + 1 then some (lvl + 1) else some old

/-- `L` is the length of the longest built-graph chain ending at `v`. -/
def IsLongestP (luts : List LutInfo) (v L : Nat) : Prop :=
  ChainToP luts v L ∧ ∀ k, ChainToP luts v k → k ≤ L

/-- Termination measure of the Kahn loop: total positive in-degree plus
queue length. -/
def muK (luts : List LutInfo) (st : KState) : Nat :=
  (∑ v ∈ Finset.range luts.length, (st.indeg v).toNat) + st.queue.length

/-- The loop invariant of `NumberLutsByLevel`'s Kahn queue. -/
structure KInv (luts : List LutInfo) (st : KState) : Prop where
  dq_nodup : st.dequeued.Nodup
  dq_lt : ∀ v ∈ st.dequeued, v < luts.length
  q_nodup : st.queue.Nodup
  q_lt : ∀ v ∈ st.queue, v < luts.length
  q_dq : ∀ v ∈ st.queue, v ∉ st.dequeued
  dq_closed : ∀ v ∈ st.dequeued, ∀ u ∈ predsOf luts v, u ∈ st.dequeued
  q_ready : ∀ v ∈ st.queue, ∀ u ∈ predsOf luts v, u ∈ st.dequeued
  indeg_eq : ∀ v, st.indeg v =
    (((predsOf luts v).filter (fun u => u ∉ st.dequeued)).length : Int)
  hasPending : ∀ v, v < luts.length → v ∉ st.dequeued → v ∉ st.queue →
    ∃ u ∈ predsOf luts v, u ∉ st.dequeued
  level_done : ∀ v, (v ∈ st.dequeued ∨ v ∈ st.queue) →
    ∃ L, st.level v = some L ∧ IsLongestP luts v L
  level_partial : ∀ v, v < luts.length → v ∉ st.dequeued → v ∉ st.queue →
    (st.level v = none ∧ ∀ u ∈ predsOf luts v, u ∉ st.dequeued) ∨
    (∃ M, st.level v = some M ∧ 1 ≤ M ∧
      (∀ u ∈ predsOf luts v, u ∈ st.dequeued →
        ∀ Lu, st.level u = some Lu → Lu + 1 ≤ M) ∧
      (∃ u ∈ predsOf luts v, u ∈ st.dequeued ∧ st.level u = some (M - 1)))

/-! # Theorems -/

/-! ## C3 — SHARED_INPUTS emission -/

/-- C3 counterexample: the exhaustive (global) strategy emits a
SHARED_INPUTS candidate for a pair whose canonical input union has size 6,
refuting "emitted if and only if the union has size at most 5" for the
global strategy. -/
theorem global_shared_union6_emitted :
    (checkSharedGlobal [lutW6, lutOne] 0 1).isSome = true ∧
    (unionInputs lutW6 lutOne).length = 6 := by
  decide

/-- C3 (amended): per tested pair, the global strategy emits a SHARED
candidate iff the union has size at most 6 and the shared count is at most
5; the layered strategy emits iff the union has size at most 5 and the
shared count is at least 1; in both, the emitted candidate carries the two
indices, SHARED type, the union pool, and score
`shared_count * 100 - union_size`. -/
theorem shared_candidate_characterization (luts : List LutInfo) (i j : Nat) :
    ((checkSharedGlobal luts i j).isSome = true ↔
      (unionInputs (luts.getD i default) (luts.getD j default)).length ≤ 6 ∧
        sharedCount (luts.getD i default) (luts.getD j default) ≤ 5) ∧
    ((checkSharedLayered luts i j).isSome = true ↔
      (unionInputs (luts.getD i default) (luts.getD j default)).length ≤ 5 ∧
        1 ≤ sharedCount (luts.getD i default) (luts.getD j default)) ∧
    (∀ c, checkSharedGlobal luts i j = some c ∨
        checkSharedLayered luts i j = some c →
      c.idx_a = i ∧ c.idx_b = j ∧ c.mtype = MergeType.SHARED_INPUTS ∧
      c.union_inputs = unionInputs (luts.getD i default) (luts.getD j default) ∧
      c.score = sharedCount (luts.getD i default) (luts.getD j default) * 100 -
        (unionInputs (luts.getD i default) (luts.getD j default)).length) := by
  refine ⟨?_, ?_, ?_⟩
  · simp only [checkSharedGlobal]
    split_ifs with h
    · exact iff_of_true rfl h
    · exact iff_of_false (by simp) h
  · simp only [checkSharedLayered]
    split_ifs with h h2
    · exact iff_of_true rfl ⟨h, h2⟩
    · exact iff_of_false (by simp) (fun hh => h2 hh.2)
    · exact iff_of_false (by simp) (fun hh => h hh.1)
  · intro c hc
    rcases hc with hc | hc
    · simp only [checkSharedGlobal] at hc
      split_ifs at hc
      cases hc
      exact ⟨rfl, rfl, rfl, rfl, rfl⟩
    · simp only [checkSharedLayered] at hc
      split_ifs at hc
      cases hc
      exact ⟨rfl, rfl, rfl, rfl, rfl⟩

/-- Witness for C3's amended theorem at the concrete pair
`[lutW6, lutOne]`: the global check does emit, and the emitted candidate's
score is the claimed formula. -/
theorem shared_candidate_characterization_witness :
    (checkSharedGlobal [lutW6, lutOne] 0 1).isSome = true ∧
    candC3.score = sharedCount lutW6 lutOne * 100 -
      (unionInputs lutW6 lutOne).length := by
  refine ⟨(shared_candidate_characterization [lutW6, lutOne] 0 1).1.mpr
    (by decide), ?_⟩
  exact ((shared_candidate_characterization [lutW6, lutOne] 0 1).2.2 candC3
    (Or.inl (by decide))).2.2.2.2

/-! ## C4 — ABSORB emission -/

/-- Helper: facts about any emitted SHARED candidate (either strategy). -/
theorem checkShared_some_facts (luts : List LutInfo) (i j : Nat)
    (c : MergeCandidate)
    (hc : checkSharedGlobal luts i j = some c ∨
      checkSharedLayered luts i j = some c) :
    c.mtype = MergeType.SHARED_INPUTS ∧
    c.score = sharedCount (luts.getD i default) (luts.getD j default) * 100 -
      (unionInputs (luts.getD i default) (luts.getD j default)).length := by
  rcases hc with hc | hc
  · simp only [checkSharedGlobal] at hc
    split_ifs at hc
    cases hc
    exact ⟨rfl, rfl⟩
  · simp only [checkSharedLayered] at hc
    split_ifs at hc
    cases hc
    exact ⟨rfl, rfl⟩

/-- Helper: any emitted SHARED candidate of a design whose two tested LUTs
have arity at most 6 scores below 10000. -/
theorem checkShared_score_lt (luts : List LutInfo) (i j : Nat)
    (c : MergeCandidate)
    (hc : checkSharedGlobal luts i j = some c ∨
      checkSharedLayered luts i j = some c)
    (hi : (luts.getD i default).size ≤ 6) (hj : (luts.getD j default).size ≤ 6) :
    c.score < 10000 := by
  obtain ⟨-, hscore⟩ := checkShared_some_facts luts i j c hc
  rw [hscore]
  unfold sharedCount
  have hu : (0 : Int) ≤ ((unionInputs (luts.getD i default)
      (luts.getD j default)).length : Int) := Int.natCast_nonneg _
  have hi6 : ((luts.getD i default).size : Int) ≤ 6 := by exact_mod_cast hi
  have hj6 : ((luts.getD j default).size : Int) ≤ 6 := by exact_mod_cast hj
  nlinarith

/-- C4 counterexample: the global strategy emits an ABSORB candidate whose
absorbed LUT has arity exactly 6 (its six ports carry only five distinct
wires), refuting "emitted only if the other LUT's arity is strictly less
than 6". -/
theorem global_absorb_arity6_emitted :
    (checkAbsorbGlobal [lutW6, lutDup6] 0 1).isSome = true ∧
    ([lutW6, lutDup6].getD 1 default).size = 6 := by
  decide

/-- C4 (amended): per tested ordered pair, the layered strategy emits an
ABSORB candidate iff the absorber has arity exactly 6, the absorbed LUT has
arity strictly less than 6, its inputs are a subset of the absorber's, and
the masked truth-table match succeeds; the global strategy checks only
arity 6 of the absorber, distinctness of the indices, the subset relation
and the match (the absorbed arity may be 6).  Every emitted candidate's
score is `10000 + 100 * size_s`, which strictly exceeds every SHARED score
emitted for LUTs of arity at most 6. -/
theorem absorb_candidate_characterization (luts : List LutInfo) (i j : Nat) :
    ((checkAbsorbLayered luts i j).isSome = true ↔
      ((luts.getD i default).size = 6 ∧ (luts.getD j default).size < 6 ∧
        inputsSubset (luts.getD j default) (luts.getD i default) = true ∧
        (CanLut6AbsorbLutS (luts.getD i default)
          (luts.getD j default)).isSome = true)) ∧
    ((checkAbsorbGlobal luts i j).isSome = true ↔
      ((luts.getD i default).size = 6 ∧ i ≠ j ∧
        inputsSubset (luts.getD j default) (luts.getD i default) = true ∧
        (CanLut6AbsorbLutS (luts.getD i default)
          (luts.getD j default)).isSome = true)) ∧
    (∀ c, checkAbsorbLayered luts i j = some c ∨
        checkAbsorbGlobal luts i j = some c →
      c.mtype = MergeType.LUT6_ABSORB ∧
      c.score = 10000 + ((luts.getD j default).size : Int) * 100 ∧
      CanLut6AbsorbLutS (luts.getD i default) (luts.getD j default) =
        some c.discovered_sel_bit ∧
      (∀ (luts2 : List LutInfo) (i2 j2 : Nat) (c2 : MergeCandidate),
        (checkSharedGlobal luts2 i2 j2 = some c2 ∨
          checkSharedLayered luts2 i2 j2 = some c2) →
        (luts2.getD i2 default).size ≤ 6 →
        (luts2.getD j2 default).size ≤ 6 →
        c2.score < c.score)) := by
  refine ⟨?_, ?_, ?_⟩
  · simp only [checkAbsorbLayered]
    split_ifs with h1 h2
    · rcases hcan : CanLut6AbsorbLutS (luts.getD i default) (luts.getD j default)
        with _ | sel
      · simp only [hcan]
        exact iff_of_false (by simp) (fun hh => by simpa using hh.2.2.2)
      · simp only [hcan]
        exact iff_of_true rfl ⟨h1.1, h1.2, h2, rfl⟩
    · exact iff_of_false (by simp) (fun hh => h2 hh.2.2.1)
    · exact iff_of_false (by simp) (fun hh => h1 ⟨hh.1, hh.2.1⟩)
  · simp only [checkAbsorbGlobal]
    split_ifs with h1 h2
    · rcases hcan : CanLut6AbsorbLutS (luts.getD i default) (luts.getD j default)
        with _ | sel
      · simp only [hcan]
        exact iff_of_false (by simp) (fun hh => by simpa using hh.2.2.2)
      · simp only [hcan]
        exact iff_of_true rfl ⟨h1.1, h1.2, h2, rfl⟩
    · exact iff_of_false (by simp) (fun hh => h2 hh.2.2.1)
    · exact iff_of_false (by simp) (fun hh => h1 ⟨hh.1, hh.2.1⟩)
  · intro c hc
    have hfacts : c.mtype = MergeType.LUT6_ABSORB ∧
        c.score = 10000 + ((luts.getD j default).size : Int) * 100 ∧
        CanLut6AbsorbLutS (luts.getD i default) (luts.getD j default) =
          some c.discovered_sel_bit := by
      rcases hc with hc | hc
      · simp only [checkAbsorbLayered] at hc
        split_ifs at hc
        rcases hcan : CanLut6AbsorbLutS (luts.getD i default)
            (luts.getD j default) with _ | sel <;> rw [hcan] at hc
        · cases hc
        · cases hc
          exact ⟨rfl, rfl, rfl⟩
      · simp only [checkAbsorbGlobal] at hc
        split_ifs at hc
        rcases hcan : CanLut6AbsorbLutS (luts.getD i default)
            (luts.getD j default) with _ | sel <;> rw [hcan] at hc
        · cases hc
        · cases hc
          exact ⟨rfl, rfl, rfl⟩
    refine ⟨hfacts.1, hfacts.2.1, hfacts.2.2, ?_⟩
    intro luts2 i2 j2 c2 hc2 hi2 hj2
    have h2 := checkShared_score_lt luts2 i2 j2 c2 hc2 hi2 hj2
    have hpos : (0 : Int) ≤ ((luts.getD j default).size : Int) :=
      Int.natCast_nonneg _
    omega

/-- Witness for C4's amended theorem at the concrete pair `lutsBug`
(layered emission, score formula, and domination over a concrete SHARED
candidate). -/
theorem absorb_candidate_characterization_witness :
    (checkAbsorbLayered lutsBug 0 1).isSome = true ∧
    candBug.score = 10000 + ((lutsBug.getD 1 default).size : Int) * 100 ∧
    candShXY.score < candBug.score := by
  refine ⟨(absorb_candidate_characterization lutsBug 0 1).1.mpr (by decide),
    ?_, ?_⟩
  · exact (((absorb_candidate_characterization lutsBug 0 1).2.2 candBug
      (Or.inl (by decide)))).2.1
  · exact (((absorb_candidate_characterization lutsBug 0 1).2.2 candBug
      (Or.inl (by decide)))).2.2.2 [lutIdX, lutNotY] 0 1 candShXY
      (Or.inl (by decide)) (by decide) (by decide)

/-! ## C2 — ABSORB exactness (code bug) -/

/-- C2: at the concrete accepted absorption `lutsBug` (where only the
selector = 1 half of the masked match succeeds), the fused cell's Z pin is
rebound to the 6-LUT's output net, yet at address 0 (all six fused inputs 0,
so the selector input is 0) the fused Z output is 0 while the 6-LUT's
original output for the all-zero assignment is 1: the fused cell does not
reproduce the 6-input source. -/
theorem absorb_sel1_divergence :
    CanLut6AbsorbLutS lutNotI5 lutZero5 = some (Sig.wire 5) ∧
    (PlanMerges lutsBug (FindMergeCandidates_Global lutsBug)).2.length = 1 ∧
    ((PlanMerges lutsBug
      (FindMergeCandidates_Global lutsBug)).2.getD 0 default).z_out =
      lutNotI5.output ∧
    lut6dZ ((PlanMerges lutsBug
      (FindMergeCandidates_Global lutsBug)).2.getD 0 default).init_val 0 =
      false ∧
    lutEval lutNotI5 (fun _ => false) = true := by
  decide

/-! ## C5 — conservation of the claimed flags -/

/-- Helper: reading the flag after setting entry `k`. -/
theorem lutFlag_set (luts : List LutInfo) (k : Nat) (x : LutInfo) (i : Nat) :
    lutFlag (luts.set k x) i =
      if i = k ∧ k < luts.length then x.is_merged else lutFlag luts i := by
  unfold lutFlag
  by_cases hik : i = k
  · subst hik
    by_cases hk : i < luts.length
    · simp [List.getD, List.getElem?_set_self, hk]
    · simp [List.getD, hk, List.set_eq_of_length_le (Nat.le_of_not_lt hk)]
  · simp [List.getD, List.getElem?_set_ne (fun h => hik h.symm), hik]

/-- Helper: membership of the index list of an extended plan list. -/
theorem planIndices_append (plans : List MergePlan) (p : MergePlan) :
    planIndices (plans ++ [p]) = planIndices plans ++ [p.idx_a, p.idx_b] := by
  unfold planIndices
  simp

/-- Helper: the `PlanMerges` loop invariant — flags only rise, plan indices
stay pairwise distinct and claimed, and newly planned indices were unclaimed
at loop entry. -/
theorem planMergesGo_inv (cands : List MergeCandidate) :
    ∀ (luts : List LutInfo) (plans : List MergePlan),
      (∀ c ∈ cands, c.idx_a < luts.length ∧ c.idx_b < luts.length ∧
        c.idx_a ≠ c.idx_b) →
      (planIndices plans).Nodup →
      (∀ i ∈ planIndices plans, lutFlag luts i = true) →
      (∀ i, lutFlag luts i = true →
        lutFlag (planMergesGo cands luts plans).1 i = true) ∧
      (planIndices (planMergesGo cands luts plans).2).Nodup ∧
      (∀ i ∈ planIndices (planMergesGo cands luts plans).2,
        lutFlag (planMergesGo cands luts plans).1 i = true) ∧
      (∀ i ∈ planIndices (planMergesGo cands luts plans).2,
        i ∉ planIndices plans → lutFlag luts i = false) := by
  induction cands with
  | nil =>
    intro luts plans _ hnd hflag
    refine ⟨fun i h => h, hnd, hflag, ?_⟩
    intro i hi hni
    exact absurd hi hni
  | cons c rest ih =>
    intro luts plans hwf hnd hflag
    have hwfc := hwf c (List.mem_cons_self c rest)
    have hwfr : ∀ d ∈ rest, d.idx_a < luts.length ∧ d.idx_b < luts.length ∧
        d.idx_a ≠ d.idx_b := fun d hd => hwf d (List.mem_cons_of_mem c hd)
    by_cases hskip : ((luts.getD c.idx_a default).is_merged ∨
        (luts.getD c.idx_b default).is_merged)
    · rw [show planMergesGo (c :: rest) luts plans =
        planMergesGo rest luts plans from by
          simp only [planMergesGo]
          rw [if_pos hskip]]
      exact ih luts plans hwfr hnd hflag
    · have hA : lutFlag luts c.idx_a = false := by
        unfold lutFlag
        exact Bool.eq_false_iff.mpr (fun h => hskip (Or.inl h))
      have hB : lutFlag luts c.idx_b = false := by
        unfold lutFlag
        exact Bool.eq_false_iff.mpr (fun h => hskip (Or.inr h))
      set luts2 := (luts.set c.idx_a
          { luts.getD c.idx_a default with is_merged := true }).set c.idx_b
          { luts.getD c.idx_b default with is_merged := true } with hluts2
      have hlen2 : luts2.length = luts.length := by
        simp [hluts2]
      have hstep : planMergesGo (c :: rest) luts plans =
          planMergesGo rest luts2
            (plans ++ [planOf (luts.getD c.idx_a default)
              (luts.getD c.idx_b default) c]) := by
        simp only [planMergesGo]
        rw [if_neg hskip]
      have hflag2 : ∀ i, lutFlag luts2 i =
          if i = c.idx_b ∧ c.idx_b < luts.length then true
          else if i = c.idx_a ∧ c.idx_a < luts.length then true
          else lutFlag luts i := by
        intro i
        rw [hluts2, lutFlag_set, lutFlag_set]
        simp only [List.length_set]
      have hf2a : lutFlag luts2 c.idx_a = true := by
        rw [hflag2]
        by_cases hab : c.idx_a = c.idx_b
        · exact absurd hab hwfc.2.2
        · simp [hwfc.1, hab]
      have hf2b : lutFlag luts2 c.idx_b = true := by
        rw [hflag2]
        simp [hwfc.2.1]
      have hmono2 : ∀ i, lutFlag luts i = true → lutFlag luts2 i = true := by
        intro i h
        rw [hflag2]
        split_ifs <;> simp [h]
      have hwfr2 : ∀ d ∈ rest, d.idx_a < luts2.length ∧
          d.idx_b < luts2.length ∧ d.idx_a ≠ d.idx_b := by
        intro d hd
        rw [hlen2]
        exact hwfr d hd
      have hidx : (planOf (luts.getD c.idx_a default)
          (luts.getD c.idx_b default) c).idx_a = c.idx_a := rfl
      have hidx2 : (planOf (luts.getD c.idx_a default)
          (luts.getD c.idx_b default) c).idx_b = c.idx_b := rfl
      have hnotmem_a : c.idx_a ∉ planIndices plans := by
        intro hmem
        have h1 := hflag _ hmem
        rw [hA] at h1
        exact Bool.false_ne_true h1
      have hnotmem_b : c.idx_b ∉ planIndices plans := by
        intro hmem
        have h1 := hflag _ hmem
        rw [hB] at h1
        exact Bool.false_ne_true h1
      set p := planOf (luts.getD c.idx_a default) (luts.getD c.idx_b default) c
        with hp
      have hnd2 : (planIndices (plans ++ [p])).Nodup := by
        rw [planIndices_append]
        refine List.Nodup.append hnd ?_ ?_
        · rw [hidx, hidx2]
          simp [hwfc.2.2]
        · intro x hx hx2
          rw [hidx, hidx2] at hx2
          rcases List.mem_cons.mp hx2 with rfl | hx3
          · exact hnotmem_a hx
          · rcases List.mem_cons.mp hx3 with rfl | hx4
            · exact hnotmem_b hx
            · cases hx4
      have hflagnew : ∀ i ∈ planIndices (plans ++ [p]), lutFlag luts2 i = true := by
        rw [planIndices_append]
        intro i hi
        rcases List.mem_append.mp hi with h | h
        · exact hmono2 i (hflag i h)
        · rw [hidx, hidx2] at h
          rcases List.mem_cons.mp h with rfl | h3
          · exact hf2a
          · rcases List.mem_cons.mp h3 with rfl | h4
            · exact hf2b
            · cases h4
      obtain ⟨m1, m2, m3, m4⟩ := ih luts2 (plans ++ [p]) hwfr2 hnd2 hflagnew
      rw [hstep]
      refine ⟨fun i h => m1 i (hmono2 i h), m2, m3, ?_⟩
      intro i hi hni
      by_cases hinew : i ∈ planIndices (plans ++ [p])
      · rw [planIndices_append] at hinew
        rcases List.mem_append.mp hinew with h | h
        · exact absurd h hni
        · rw [hidx, hidx2] at h
          rcases List.mem_cons.mp h with rfl | h3
          · exact hA
          · rcases List.mem_cons.mp h3 with rfl | h4
            · exact hB
            · cases h4
      · have h2 := m4 i hi hinew
        rw [hflag2] at h2
        by_cases hc1 : i = c.idx_b ∧ c.idx_b < luts.length
        · rw [if_pos hc1] at h2
          exact absurd h2 (by simp)
        · rw [if_neg hc1] at h2
          by_cases hc2 : i = c.idx_a ∧ c.idx_a < luts.length
          · rw [if_pos hc2] at h2
            exact absurd h2 (by simp)
          · rw [if_neg hc2] at h2
            exact h2

/-- Helper: membership through score-ordered insertion. -/
theorem mem_insertByScore (x c : MergeCandidate) (l : List MergeCandidate) :
    x ∈ insertByScore c l ↔ x = c ∨ x ∈ l := by
  induction l with
  | nil => simp [insertByScore]
  | cons d ds ih =>
    by_cases h : d.score < c.score
    · simp [insertByScore, h]
    · simp only [insertByScore, if_neg h, List.mem_cons, ih]
      tauto

/-- Helper: the pop order is a reordering, membership-wise. -/
theorem mem_popOrder (x : MergeCandidate) (cands : List MergeCandidate) :
    x ∈ popOrder cands ↔ x ∈ cands := by
  induction cands with
  | nil => simp [popOrder]
  | cons c rest ih =>
    simp only [popOrder, List.foldr_cons, List.mem_cons]
    rw [show List.foldr insertByScore [] rest = popOrder rest from rfl] at *
    rw [mem_insertByScore, ih]

/-- C5: across one planner run, claimed flags transition only from false to
true (monotone, hence at most once), emitted plans carry pairwise distinct
LUT indices (no LUT appears in two plans), and every planned index was
unclaimed at entry and is claimed in the final state. -/
theorem plan_merges_conservation (luts : List LutInfo)
    (cands : List MergeCandidate)
    (hwf : ∀ c ∈ cands, c.idx_a < luts.length ∧ c.idx_b < luts.length ∧
      c.idx_a ≠ c.idx_b) :
    (∀ i, lutFlag luts i = true → lutFlag (PlanMerges luts cands).1 i = true) ∧
    (planIndices (PlanMerges luts cands).2).Nodup ∧
    (∀ i ∈ planIndices (PlanMerges luts cands).2,
      lutFlag luts i = false ∧ lutFlag (PlanMerges luts cands).1 i = true) := by
  have hwf2 : ∀ c ∈ popOrder cands, c.idx_a < luts.length ∧
      c.idx_b < luts.length ∧ c.idx_a ≠ c.idx_b :=
    fun c hc => hwf c ((mem_popOrder c cands).mp hc)
  obtain ⟨m1, m2, m3, m4⟩ := planMergesGo_inv (popOrder cands) luts [] hwf2
    (by simp [planIndices]) (by simp [planIndices])
  exact ⟨m1, m2, fun i hi =>
    ⟨m4 i hi (by simp [planIndices]), m3 i hi⟩⟩

/-- Witness for C5 at a concrete two-LUT design with one candidate: the
emitted plan indices are distinct, LUT 0 starts unclaimed and ends
claimed. -/
theorem plan_merges_conservation_witness :
    (planIndices (PlanMerges [lutIdX, lutNotY] [candC5]).2).Nodup ∧
    lutFlag [lutIdX, lutNotY] 0 = false ∧
    lutFlag (PlanMerges [lutIdX, lutNotY] [candC5]).1 0 = true := by
  have h := plan_merges_conservation [lutIdX, lutNotY] [candC5] (by
    intro c hc
    rw [List.mem_singleton] at hc
    subst hc
    exact ⟨by decide, by decide, by decide⟩)
  exact ⟨h.2.1, (h.2.2 0 (by decide)).1, (h.2.2 0 (by decide)).2⟩

/-! ## C8 / C9 — the two-phase commit -/

/-- Helper: membership in a pool after insertion. -/
theorem mem_pIns {α : Type} [DecidableEq α] (a s : α) (l : List α) :
    a ∈ pIns l s ↔ a ∈ l ∨ a = s := by
  unfold pIns
  split_ifs with h
  · constructor
    · exact fun h2 => Or.inl h2
    · rintro (h2 | rfl)
      · exact h2
      · exact h
  · simp

/-- Helper: pool insertion preserves distinctness. -/
theorem nodup_pIns {α : Type} [DecidableEq α] (s : α) (l : List α)
    (h : l.Nodup) : (pIns l s).Nodup := by
  unfold pIns
  split_ifs with hmem
  · exact h
  · refine List.Nodup.append h (List.nodup_singleton s) ?_
    intro a ha hb
    rw [List.mem_singleton] at hb
    subst hb
    exact hmem ha

/-- Helper: membership in the removal-name pool. -/
theorem mem_removeNames_fold (nm : Nat) :
    ∀ (plans : List MergePlan) (acc : List Nat),
      nm ∈ plans.foldl (fun acc p => pIns (pIns acc p.name_a) p.name_b) acc ↔
        nm ∈ acc ∨ ∃ p ∈ plans, nm = p.name_a ∨ nm = p.name_b := by
  intro plans
  induction plans with
  | nil => simp
  | cons p rest ih =>
    intro acc
    simp only [List.foldl_cons, ih, mem_pIns, List.mem_cons]
    constructor
    · rintro (((h | rfl) | rfl) | ⟨q, hq, hq2⟩)
      · exact Or.inl h
      · exact Or.inr ⟨p, Or.inl rfl, Or.inl rfl⟩
      · exact Or.inr ⟨p, Or.inl rfl, Or.inr rfl⟩
      · exact Or.inr ⟨q, Or.inr hq, hq2⟩
    · rintro (h | ⟨q, hq | hq, hq2⟩)
      · exact Or.inl (Or.inl (Or.inl h))
      · subst hq
        rcases hq2 with rfl | rfl
        · exact Or.inl (Or.inl (Or.inr rfl))
        · exact Or.inl (Or.inr rfl)
      · exact Or.inr ⟨q, hq, hq2⟩

/-- Helper: names collected for removal are the distinct names of the
plans. -/
theorem mem_removeNames (nm : Nat) (plans : List MergePlan) :
    nm ∈ removeNames plans ↔ ∃ p ∈ plans, nm = p.name_a ∨ nm = p.name_b := by
  unfold removeNames
  rw [mem_removeNames_fold]
  simp

/-- Helper: the removal-name pool is duplicate-free. -/
theorem removeNames_nodup (plans : List MergePlan) :
    (removeNames plans).Nodup := by
  unfold removeNames
  have hgen : ∀ (ps : List MergePlan) (acc : List Nat), acc.Nodup →
      (ps.foldl (fun acc p => pIns (pIns acc p.name_a) p.name_b) acc).Nodup := by
    intro ps
    induction ps with
    | nil => exact fun acc h => h
    | cons p rest ih =>
      intro acc hacc
      exact ih _ (nodup_pIns _ _ (nodup_pIns _ _ hacc))
  exact hgen plans [] List.nodup_nil

/-- Helper: erasing a cell of a different name preserves presence. -/
theorem hasCell_eraseP_ne (m : Module) (nm x : Nat) (h : nm ≠ x) :
    moduleHasCell (m.eraseP (fun c => c.name = x)) nm = moduleHasCell m nm := by
  induction m with
  | nil => rfl
  | cons c rest ih =>
    unfold moduleHasCell at *
    rw [List.eraseP_cons]
    by_cases hc : c.name = x
    · have hd : (decide (c.name = x)) = true := by simpa using hc
      rw [hd]
      have hd2 : (decide (c.name = nm)) = false := by
        simp only [decide_eq_false_iff_not]
        intro h2
        exact h (h2 ▸ hc ▸ rfl)
      simp only [cond_true, List.any_cons, hd2, Bool.false_or]
    · have hd : (decide (c.name = x)) = false := by simpa using hc
      rw [hd]
      simp only [cond_false, List.any_cons, ih]

/-- Helper: the op list of the removal loop records exactly the present
names, in order. -/
theorem execRemovals_ops :
    ∀ (names : List Nat) (m : Module) (ops : List Op), names.Nodup →
      (execRemovals names m ops).2 =
        ops ++ (names.filter (fun nm => moduleHasCell m nm)).map Op.rem := by
  intro names
  induction names with
  | nil => intro m ops _; simp [execRemovals]
  | cons nm rest ih =>
    intro m ops hnd
    have hnd2 := (List.nodup_cons.mp hnd).2
    have hnm : nm ∉ rest := (List.nodup_cons.mp hnd).1
    unfold execRemovals
    by_cases hpres : moduleHasCell m nm = true
    · rw [if_pos hpres, ih _ _ hnd2]
      have hsame : rest.filter
          (fun y => moduleHasCell (m.eraseP (fun c => c.name = nm)) y) =
          rest.filter (fun y => moduleHasCell m y) := by
        apply List.filter_congr
        intro y hy
        have hyne : y ≠ nm := fun h => hnm (h ▸ hy)
        rw [hasCell_eraseP_ne m y nm hyne]
      rw [hsame]
      simp [hpres]
    · rw [if_neg hpres]
      rw [ih _ _ hnd2]
      have : (decide (moduleHasCell m nm = true)) = false := by
        simpa using hpres
      simp [List.filter_cons, hpres]

/-- Helper: the op list of the addition loop appends one `add` per plan. -/
theorem execAdds_ops :
    ∀ (plans : List MergePlan) (m : Module) (ops : List Op),
      (execAdds plans m ops).2 =
        ops ++ plans.map (fun p => Op.add p.new_name) := by
  intro plans
  induction plans with
  | nil => intro m ops; simp [execAdds]
  | cons p rest ih =>
    intro m ops
    unfold execAdds
    rw [ih]
    simp

/-- C8: the commit trace consists of the removals — one per distinct cell
name mentioned by any plan, every one of them present — followed by all
fused-cell additions: no `addCell` happens until every removal has been
performed, and a cell named by two plans is removed only once. -/
theorem commit_remove_before_add (m : Module) (plans : List MergePlan)
    (hpres : ∀ p ∈ plans, moduleHasCell m p.name_a = true ∧
      moduleHasCell m p.name_b = true) :
    (commitModule m plans).2 = (removeNames plans).map Op.rem ++
      plans.map (fun p => Op.add p.new_name) ∧
    (removeNames plans).Nodup ∧
    (∀ nm, nm ∈ removeNames plans ↔
      ∃ p ∈ plans, nm = p.name_a ∨ nm = p.name_b) ∧
    (∀ o ∈ (removeNames plans).map Op.rem, o.isRem = true) ∧
    (∀ o ∈ plans.map (fun p => Op.add p.new_name), o.isRem = false) := by
  have hfilter : (removeNames plans).filter (fun nm => moduleHasCell m nm) =
      removeNames plans := by
    apply List.filter_eq_self.mpr
    intro nm hnm
    obtain ⟨p, hp, hp2⟩ := (mem_removeNames nm plans).mp hnm
    rcases hp2 with rfl | rfl
    · simpa using (hpres p hp).1
    · simpa using (hpres p hp).2
  refine ⟨?_, removeNames_nodup plans, fun nm => mem_removeNames nm plans,
    ?_, ?_⟩
  · unfold commitModule
    rw [execAdds_ops, execRemovals_ops _ _ _ (removeNames_nodup plans),
      hfilter]
    simp
  · intro o ho
    obtain ⟨nm, _, rfl⟩ := List.mem_map.mp ho
    rfl
  · intro o ho
    obtain ⟨p, _, rfl⟩ := List.mem_map.mp ho
    rfl

/-- Witness for C8 at the concrete module `modFix` and plan `planFix`. -/
theorem commit_remove_before_add_witness :
    (commitModule modFix [planFix]).2 = (removeNames [planFix]).map Op.rem ++
      [planFix].map (fun p => Op.add p.new_name) ∧
    (removeNames [planFix]).Nodup := by
  have h := commit_remove_before_add modFix [planFix] (by
    intro p hp
    rw [List.mem_singleton] at hp
    subst hp
    exact ⟨by decide, by decide⟩)
  exact ⟨h.1, h.2.1⟩

/-- C9 counterexample: committing a plan whose two original cells are absent
from the module completes without any failure, performs zero removals,
still instantiates the fused cell, and the pass reports one performed
merge — the removal is silently skipped instead of failing hard. -/
theorem commit_absent_cell_silent_skip :
    reportedMerges [planFix] = 1 ∧
    (commitModule [] [planFix]).2 = [Op.add 102] ∧
    ((commitModule [] [planFix]).2.filter Op.isRem).length = 0 ∧
    ((commitModule [] [planFix]).2.filter Op.isRem).length ≠
      (removeNames [planFix]).length ∧
    (commitModule [] [planFix]).1 = [fusedCellOf planFix] := by
  decide

/-- C9 (amended): the executor checks presence before each removal and
silently skips absent cells — the commit trace removes exactly the present
distinct plan-named cells and then unconditionally adds every plan's fused
cell, and the reported merge count is the plan count regardless of what was
actually removed. -/
theorem commit_skip_characterization (m : Module) (plans : List MergePlan) :
    reportedMerges plans = plans.length ∧
    (commitModule m plans).2 =
      ((removeNames plans).filter (fun nm => moduleHasCell m nm)).map Op.rem
        ++ plans.map (fun p => Op.add p.new_name) := by
  refine ⟨rfl, ?_⟩
  unfold commitModule
  rw [execAdds_ops, execRemovals_ops _ _ _ (removeNames_nodup plans)]
  simp

/-! ## C10 — frame property of `StitcherMain` -/

/-- C10: whenever planning yields no plan — in particular with zero
candidates or zero collected LUTs — `StitcherMain` returns before the
mutation phase and the module is left unchanged. -/
theorem stitcher_no_plans_frame (m : Module) :
    (stitcherPlans m = [] → StitcherMain m = m) ∧
    (stitcherCandidates m = [] → StitcherMain m = m) ∧
    (CollectLuts m = [] → StitcherMain m = m) := by
  have h1 : stitcherPlans m = [] → StitcherMain m = m := by
    intro h
    unfold StitcherMain
    rw [if_pos h]
  have h2 : stitcherCandidates m = [] → StitcherMain m = m := by
    intro h
    apply h1
    unfold stitcherPlans PlanMerges
    rw [h]
    rfl
  refine ⟨h1, h2, ?_⟩
  intro h
  apply h2
  unfold stitcherCandidates
  rw [h]
  rfl

/-- Witness for C10 at the concrete module `modNoPair` (one LUT, one
unrelated cell: no candidate pair, no plan, module unchanged). -/
theorem stitcher_no_plans_frame_witness :
    stitcherPlans modNoPair = [] ∧ StitcherMain modNoPair = modNoPair :=
  ⟨by decide, (stitcher_no_plans_frame modNoPair).1 (by decide)⟩

/-! ## C1 — SHARED_INPUTS exactness -/

/-- Helper: the encoded fused address stays below `2 ^ (number of slots)`. -/
theorem encodeAssign_lt (env : Sig → Bool) :
    ∀ us : List Sig, encodeAssign env us < 2 ^ us.length := by
  intro us
  induction us with
  | nil => simp [encodeAssign]
  | cons s ss ih =>
    simp only [encodeAssign, List.length_cons, pow_succ]
    by_cases h : env s <;> simp [h] <;> omega

/-- Helper: bit `j` of the encoded fused address is the assigned value of
slot `j`. -/
theorem encodeAssign_testBit (env : Sig → Bool) :
    ∀ (us : List Sig) (j : Nat), j < us.length →
      (encodeAssign env us).testBit j = env (us.getD j Sig.Sx) := by
  intro us
  induction us with
  | nil => intro j hj; simp at hj
  | cons s ss ih =>
    intro j hj
    cases j with
    | zero =>
      simp only [encodeAssign, Nat.testBit_zero, List.getD_cons_zero]
      by_cases h : env s <;> simp [h] <;> omega
    | succ j =>
      simp only [encodeAssign, Nat.testBit_succ, List.getD_cons_succ]
      have hdiv : ((if env s then 1 else 0) + 2 * encodeAssign env ss) / 2 =
          encodeAssign env ss := by
        by_cases h : env s <;> simp [h] <;> omega
      rw [hdiv]
      exact ih j (by simpa using hj)

/-- Helper: a signal occurring in the union prefix is found there by
`std::find`, at an index carrying that signal. -/
theorem findIdx_append_of_mem :
    ∀ (us : List Sig) (rest : List Sig) (p : Sig), p ∈ us →
      ∃ j, (us ++ rest).findIdx? (fun x => decide (x = p)) = some j ∧
        j < us.length ∧ us.getD j Sig.Sx = p := by
  intro us
  induction us with
  | nil => intro rest p hp; simp at hp
  | cons u us ih =>
    intro rest p hp
    by_cases hu : u = p
    · refine ⟨0, ?_, by simp, by simpa using hu⟩
      simp [List.findIdx?_cons, hu]
    · have hp2 : p ∈ us := by
        rcases List.mem_cons.mp hp with rfl | h
        · exact absurd rfl hu
        · exact h
      obtain ⟨j, hfind, hlt, hval⟩ := ih rest p hp2
      refine ⟨j + 1, ?_, by simpa using Nat.succ_lt_succ hlt, by simpa using hval⟩
      rw [List.cons_append, List.findIdx?_cons]
      simp only [hu, decide_eq_true_eq, if_neg hu]
      rw [List.findIdx?_succ, hfind]
      rfl

/-- Helper: on ports drawn from the union slots, the Z5 address loop
computes exactly the source LUT's own address under the assignment. -/
theorem z5AddrGo_eq_portsAddr (env : Sig → Bool) (us rest : List Sig) :
    ∀ (ports : List Sig), (∀ p ∈ ports, p ∈ us) → ∀ b,
      z5AddrGo (us ++ rest) (encodeAssign env us) ports b =
        portsAddr env ports b := by
  intro ports
  induction ports with
  | nil => intro _ b; rfl
  | cons p ps ih =>
    intro hmem b
    have hp : p ∈ us := hmem p (List.mem_cons_self p ps)
    obtain ⟨j, hfind, hlt, hval⟩ := findIdx_append_of_mem us rest p hp
    simp only [z5AddrGo, portsAddr, hfind]
    rw [encodeAssign_testBit env us j hlt, hval,
      ih (fun q hq => hmem q (List.mem_cons_of_mem p hq)) (b * 2)]

/-- Helper: same as `z5AddrGo_eq_portsAddr` for the Z half (the selector
branch is unreachable when every port is found among the slots). -/
theorem zAddrGo_eq_portsAddr (env : Sig → Bool) (us rest : List Sig)
    (sel : Sig) :
    ∀ (ports : List Sig), (∀ p ∈ ports, p ∈ us) → ∀ b,
      zAddrGo (us ++ rest) sel (encodeAssign env us) ports b =
        portsAddr env ports b := by
  intro ports
  induction ports with
  | nil => intro _ b; rfl
  | cons p ps ih =>
    intro hmem b
    have hp : p ∈ us := hmem p (List.mem_cons_self p ps)
    obtain ⟨j, hfind, hlt, hval⟩ := findIdx_append_of_mem us rest p hp
    simp only [zAddrGo, portsAddr, hfind]
    rw [encodeAssign_testBit env us j hlt, hval,
      ih (fun q hq => hmem q (List.mem_cons_of_mem p hq)) (b * 2)]

/-- Helper: indexing the tabulated 32 rows. -/
theorem getD_range32_map (f : Nat → Bool) (i : Nat) (h : i < 32) :
    ((List.range 32).map f).getD i false = f i := by
  rw [List.getD_eq_getElem?_getD, List.getElem?_map, List.getElem?_range h]
  rfl

/-- C1: for a SHARED_INPUTS plan over a union of wire signals of size at
most 5 covering both LUTs' inputs, the plan's input vector and selector
(constant 1) feed `calculate_new_init` so that, under any Boolean assignment
of the union signals, the fused table's low-half bit at the encoded shared
address is LUT a's original output and the high-half bit is LUT b's
original output, while Z5 is re-bound to a's output net and Z to b's. -/
theorem shared_inputs_exactness (lut_a lut_b : LutInfo) (c : MergeCandidate)
    (env : Sig → Bool)
    (hm : c.mtype = MergeType.SHARED_INPUTS)
    (hu5 : c.union_inputs.length ≤ 5)
    (hwire : ∀ s ∈ c.union_inputs, ∃ k, s = Sig.wire k)
    (hsa : ∀ s ∈ lut_a.ordered_inputs, s ∈ c.union_inputs)
    (hsb : ∀ s ∈ lut_b.ordered_inputs, s ∈ c.union_inputs) :
    (calculate_new_init lut_a lut_b (buildPlanInputs lut_a lut_b c).1
        (buildPlanInputs lut_a lut_b c).2).1.getD
        (encodeAssign env c.union_inputs) false = lutEval lut_a env ∧
    (calculate_new_init lut_a lut_b (buildPlanInputs lut_a lut_b c).1
        (buildPlanInputs lut_a lut_b c).2).1.getD
        (32 + encodeAssign env c.union_inputs) false = lutEval lut_b env ∧
    (calculate_new_init lut_a lut_b (buildPlanInputs lut_a lut_b c).1
        (buildPlanInputs lut_a lut_b c).2).2.1 = lut_b.output ∧
    (calculate_new_init lut_a lut_b (buildPlanInputs lut_a lut_b c).1
        (buildPlanInputs lut_a lut_b c).2).2.2 = lut_a.output := by
  set us := c.union_inputs with hus
  have hbp : buildPlanInputs lut_a lut_b c =
      ((us ++ List.replicate (5 - us.length) Sig.S0) ++ [Sig.S1], Sig.S1) := by
    unfold buildPlanInputs
    rw [hm]
  have hnoS1a : lutHasInput lut_a Sig.S1 = false := by
    unfold lutHasInput
    rw [List.contains_eq_any_beq]
    rw [List.any_eq_false]
    intro s hs
    obtain ⟨k, hk⟩ := hwire s (hsa s hs)
    subst hk
    simp
  have hlen5 : (us ++ List.replicate (5 - us.length) Sig.S0).length = 5 := by
    simp [List.length_replicate]
    omega
  have htake : ((us ++ List.replicate (5 - us.length) Sig.S0) ++
      [Sig.S1]).take 5 = us ++ List.replicate (5 - us.length) Sig.S0 := by
    have ht0 := List.take_left (us ++ List.replicate (5 - us.length) Sig.S0)
      [Sig.S1]
    rw [hlen5] at ht0
    exact ht0
  have hienc : encodeAssign env us < 32 := by
    have h1 := encodeAssign_lt env us
    have h2 : (2 : Nat) ^ us.length ≤ 2 ^ 5 :=
      Nat.pow_le_pow_right (by omega) hu5
    omega
  rw [hbp]
  unfold calculate_new_init
  rw [hnoS1a]
  simp only [Bool.false_eq_true, if_false, htake]
  set pad := List.replicate (5 - us.length) Sig.S0 with hpad
  have hz5len : ((List.range 32).map (fun i =>
      lut_a.init_val.getD (z5AddrGo (us ++ pad) i lut_a.ordered_inputs 1)
        false)).length = 32 := by
    simp
  refine ⟨?_, ?_, by simp, by simp⟩
  · rw [List.getD_eq_getElem?_getD, List.getElem?_append_left (by omega),
      ← List.getD_eq_getElem?_getD, getD_range32_map _ _ hienc,
      z5AddrGo_eq_portsAddr env us pad lut_a.ordered_inputs hsa 1]
    rfl
  · rw [List.getD_eq_getElem?_getD, List.getElem?_append_right (by omega)]
    have hsub : 32 + encodeAssign env us - ((List.range 32).map (fun i =>
        lut_a.init_val.getD (z5AddrGo (us ++ pad) i lut_a.ordered_inputs 1)
          false)).length = encodeAssign env us := by
      rw [hz5len]
      omega
    rw [hsub, ← List.getD_eq_getElem?_getD, getD_range32_map _ _ hienc,
      zAddrGo_eq_portsAddr env us pad Sig.S1 lut_b.ordered_inputs hsb 1]
    rfl

/-- Witness for C1 at the spec's own scenario: 1-input LUTs with tables
`[0,1]` (identity of wire 0) and `[1,0]` (inverter of wire 1), union of
size 2, under the assignment wire0 = 1, wire1 = 0 (encoded address 1). -/
theorem shared_inputs_exactness_witness :
    (calculate_new_init lutIdX lutNotY
        (buildPlanInputs lutIdX lutNotY candC5).1
        (buildPlanInputs lutIdX lutNotY candC5).2).1.getD 1 false =
      lutEval lutIdX (fun s => decide (s = Sig.wire 0)) ∧
    (calculate_new_init lutIdX lutNotY
        (buildPlanInputs lutIdX lutNotY candC5).1
        (buildPlanInputs lutIdX lutNotY candC5).2).1.getD 33 false =
      lutEval lutNotY (fun s => decide (s = Sig.wire 0)) := by
  have h := shared_inputs_exactness lutIdX lutNotY candC5
    (fun s => decide (s = Sig.wire 0)) rfl (by decide)
    (by
      intro s hs
      rw [show candC5.union_inputs = [Sig.wire 0, Sig.wire 1] from rfl] at hs
      rcases List.mem_cons.mp hs with rfl | hs2
      · exact ⟨0, rfl⟩
      · rcases List.mem_cons.mp hs2 with rfl | hs3
        · exact ⟨1, rfl⟩
        · cases hs3)
    (by decide) (by decide)
  have henc : encodeAssign (fun s => decide (s = Sig.wire 0))
      candC5.union_inputs = 1 := by decide
  constructor
  · have h1 := h.1
    rw [henc] at h1
    exact h1
  · have h2 := h.2.1
    rw [henc] at h2
    exact h2

/-! ## C6 / C7 — leveling: graph lemmas -/

/-- Helper: membership through a pool-insertion fold. -/
theorem mem_foldl_pIns {α : Type} [DecidableEq α] (a : α) :
    ∀ (l : List α) (acc : List α), a ∈ l.foldl pIns acc ↔ a ∈ acc ∨ a ∈ l := by
  intro l
  induction l with
  | nil => simp
  | cons x xs ih =>
    intro acc
    rw [List.foldl_cons, ih, mem_pIns]
    simp only [List.mem_cons]
    tauto

/-- Helper: a pool-insertion fold preserves distinctness. -/
theorem nodup_foldl_pIns {α : Type} [DecidableEq α] :
    ∀ (l : List α) (acc : List α), acc.Nodup → (l.foldl pIns acc).Nodup := by
  intro l
  induction l with
  | nil => exact fun acc h => h
  | cons x xs ih => exact fun acc h => ih _ (nodup_pIns x acc h)

/-- Helper: an overwrite-fold that returns a hit found it in the list. -/
theorem foldl_overwrite_some {P : Nat → Prop} [DecidablePred P] :
    ∀ (l : List Nat) (acc : Option Nat) (u : Nat),
      l.foldl (fun acc x => if P x then some x else acc) acc = some u →
      (u ∈ l ∧ P u) ∨ acc = some u := by
  intro l
  induction l with
  | nil => intro acc u h; exact Or.inr h
  | cons x xs ih =>
    intro acc u h
    rcases ih _ u h with ⟨hm, hp⟩ | hacc
    · exact Or.inl ⟨List.mem_cons_of_mem x hm, hp⟩
    · dsimp only at hacc
      by_cases hx : P x
      · rw [if_pos hx] at hacc
        cases hacc
        exact Or.inl ⟨List.mem_cons_self x xs, hx⟩
      · rw [if_neg hx] at hacc
        exact Or.inr hacc

/-- Helper: an overwrite-fold over a list whose only hit is `u` returns
`u`. -/
theorem foldl_overwrite_unique {P : Nat → Prop} [DecidablePred P]
    (l : List Nat) (acc : Option Nat) (u : Nat) (hu : u ∈ l) (hp : P u)
    (huniq : ∀ w ∈ l, P w → w = u) :
    l.foldl (fun acc x => if P x then some x else acc) acc = some u := by
  induction l using List.reverseRecOn with
  | nil => simp at hu
  | append_singleton l x ih =>
    rw [List.foldl_append, List.foldl_cons, List.foldl_nil]
    by_cases hx : P x
    · rw [if_pos hx]
      rw [huniq x (List.mem_append_right l (List.mem_singleton_self x)) hx]
    · rw [if_neg hx]
      have hul : u ∈ l := by
        rcases List.mem_append.mp hu with h | h
        · exact h
        · rw [List.mem_singleton] at h
          subst h
          exact absurd hp hx
      exact ih hul (fun w hw hpw =>
        huniq w (List.mem_append_left _ hw) hpw)

/-- Helper: a successful driver lookup names an in-range LUT with that
output. -/
theorem driverOf_some (luts : List LutInfo) (s : Sig) (u : Nat)
    (h : driverOf luts s = some u) :
    u < luts.length ∧ (luts.getD u default).output = s := by
  unfold driverOf at h
  rcases foldl_overwrite_some _ _ _ h with ⟨hm, hp⟩ | habs
  · exact ⟨List.mem_range.mp hm, hp⟩
  · cases habs

/-- Helper: under pairwise distinct outputs, the driver of LUT `u`'s output
is `u`. -/
theorem driverOf_eq_some (luts : List LutInfo)
    (houti : ∀ i j, i < luts.length → j < luts.length →
      (luts.getD i default).output = (luts.getD j default).output → i = j)
    (u : Nat) (hu : u < luts.length) :
    driverOf luts (luts.getD u default).output = some u := by
  unfold driverOf
  exact foldl_overwrite_unique _ _ _ (List.mem_range.mpr hu) rfl
    (fun w hw hpw => houti w u (List.mem_range.mp hw) hu hpw)

/-- Helper: membership in the built predecessor pool. -/
theorem mem_predsOf (luts : List LutInfo) (v u : Nat) :
    u ∈ predsOf luts v ↔ ∃ s ∈ (luts.getD v default).ordered_inputs,
      driverOf luts s = some u := by
  unfold predsOf
  rw [mem_foldl_pIns]
  simp [List.mem_filterMap]

/-- Helper: the predecessor pool is duplicate-free. -/
theorem predsOf_nodup (luts : List LutInfo) (v : Nat) :
    (predsOf luts v).Nodup :=
  nodup_foldl_pIns _ _ List.nodup_nil

/-- Helper: out-of-range nodes have no predecessors. -/
theorem predsOf_ge_nil (luts : List LutInfo) (v : Nat)
    (h : luts.length ≤ v) : predsOf luts v = [] := by
  unfold predsOf
  rw [List.getD_eq_default _ _ h]
  rfl

/-- Helper: the built graph's edges are dependency edges. -/
theorem mem_predsOf_depEdge (luts : List LutInfo) (u v : Nat)
    (h : u ∈ predsOf luts v) : depEdge luts u v := by
  obtain ⟨s, hs, hd⟩ := (mem_predsOf luts v u).mp h
  obtain ⟨hu, hout⟩ := driverOf_some luts s u hd
  have hv : v < luts.length := by
    by_contra hv
    rw [List.getD_eq_default _ _ (Nat.le_of_not_lt hv)] at hs
    cases hs
  exact ⟨hu, hv, by rw [hout]; exact hs⟩

/-- Helper: under pairwise distinct outputs, dependency edges are built
edges. -/
theorem depEdge_mem_predsOf (luts : List LutInfo)
    (houti : ∀ i j, i < luts.length → j < luts.length →
      (luts.getD i default).output = (luts.getD j default).output → i = j)
    (u v : Nat) (h : depEdge luts u v) : u ∈ predsOf luts v := by
  obtain ⟨hu, hv, hmem⟩ := h
  exact (mem_predsOf luts v u).mpr
    ⟨(luts.getD u default).output, hmem, driverOf_eq_some luts houti u hu⟩

/-- Helper: membership in the successor list. -/
theorem mem_succsOf (luts : List LutInfo) (u v : Nat) :
    v ∈ succsOf luts u ↔ v < luts.length ∧ u ∈ predsOf luts v := by
  unfold succsOf
  rw [List.mem_filter, List.mem_range]
  simp

/-- Helper: the successor list is duplicate-free. -/
theorem succsOf_nodup (luts : List LutInfo) (u : Nat) :
    (succsOf luts u).Nodup :=
  (List.nodup_range _).filter _

/-- Helper: built-graph chains and dependency chains coincide under
pairwise distinct outputs. -/
theorem chainToP_iff_chainTo (luts : List LutInfo)
    (houti : ∀ i j, i < luts.length → j < luts.length →
      (luts.getD i default).output = (luts.getD j default).output → i = j)
    (v k : Nat) : ChainToP luts v k ↔ ChainTo luts v k := by
  constructor
  · intro h
    induction h with
    | base w => exact ChainTo.base w
    | step he _ ih => exact ChainTo.step (mem_predsOf_depEdge _ _ _ he) ih
  · intro h
    induction h with
    | base w => exact ChainToP.base w
    | step he _ ih =>
      exact ChainToP.step (depEdge_mem_predsOf _ houti _ _ he) ih

/-! ## C6 / C7 — leveling: the successor-processing step -/

/-- Helper: level field after one successor update. -/
theorem processOne_level (lvl : Nat) (st : KState) (v w : Nat) :
    (processOne lvl st v).level w =
      if w = v then updLevel lvl (st.level v) else st.level w := by
  show Function.update st.level v _ w = _
  rw [Function.update_apply]
  rfl

/-- Helper: in-degree field after one successor update. -/
theorem processOne_indeg (lvl : Nat) (st : KState) (v w : Nat) :
    (processOne lvl st v).indeg w =
      if w = v then st.indeg v - 1 else st.indeg w := by
  show Function.update st.indeg v _ w = _
  rw [Function.update_apply]

/-- Helper: queue field after one successor update. -/
theorem processOne_queue (lvl : Nat) (st : KState) (v : Nat) :
    (processOne lvl st v).queue =
      st.queue ++ (if st.indeg v - 1 = 0 then [v] else []) := by
  show (if st.indeg v - 1 = 0 then st.queue ++ [v] else st.queue) = _
  split_ifs <;> simp

/-- Helper: the dequeue record is untouched by successor processing. -/
theorem processSuccs_dequeued (lvl : Nat) :
    ∀ (vs : List Nat) (st : KState),
      (processSuccs lvl st vs).dequeued = st.dequeued := by
  intro vs
  induction vs with
  | nil => intro st; rfl
  | cons v vs ih => intro st; rw [processSuccs, ih]; rfl

/-- Helper: levels after processing a duplicate-free successor list. -/
theorem processSuccs_level (lvl : Nat) :
    ∀ (vs : List Nat) (st : KState), vs.Nodup → ∀ w,
      (processSuccs lvl st vs).level w =
        if w ∈ vs then updLevel lvl (st.level w) else st.level w := by
  intro vs
  induction vs with
  | nil => intro st _ w; simp [processSuccs]
  | cons v vs ih =>
    intro st hnd w
    have hvn : v ∉ vs := (List.nodup_cons.mp hnd).1
    rw [processSuccs, ih _ (List.nodup_cons.mp hnd).2 w]
    by_cases hw : w ∈ vs
    · have hwv : w ≠ v := fun h => hvn (h ▸ hw)
      rw [if_pos hw, if_pos (List.mem_cons_of_mem v hw), processOne_level,
        if_neg hwv]
    · rw [if_neg hw, processOne_level]
      by_cases hwv : w = v
      · subst hwv
        rw [if_pos rfl, if_pos (List.mem_cons_self w vs)]
      · rw [if_neg hwv, if_neg (by
          intro hmem
          rcases List.mem_cons.mp hmem with h | h
          · exact hwv h
          · exact hw h)]

/-- Helper: in-degrees after processing a duplicate-free successor list. -/
theorem processSuccs_indeg (lvl : Nat) :
    ∀ (vs : List Nat) (st : KState), vs.Nodup → ∀ w,
      (processSuccs lvl st vs).indeg w =
        if w ∈ vs then st.indeg w - 1 else st.indeg w := by
  intro vs
  induction vs with
  | nil => intro st _ w; simp [processSuccs]
  | cons v vs ih =>
    intro st hnd w
    have hvn : v ∉ vs := (List.nodup_cons.mp hnd).1
    rw [processSuccs, ih _ (List.nodup_cons.mp hnd).2 w]
    by_cases hw : w ∈ vs
    · have hwv : w ≠ v := fun h => hvn (h ▸ hw)
      rw [if_pos hw, if_pos (List.mem_cons_of_mem v hw), processOne_indeg,
        if_neg hwv]
    · rw [if_neg hw, processOne_indeg]
      by_cases hwv : w = v
      · subst hwv
        rw [if_pos rfl, if_pos (List.mem_cons_self w vs)]
      · rw [if_neg hwv, if_neg (by
          intro hmem
          rcases List.mem_cons.mp hmem with h | h
          · exact hwv h
          · exact hw h)]

/-- Helper: the queue after processing a duplicate-free successor list
appends exactly the successors whose in-degree reached zero. -/
theorem processSuccs_queue (lvl : Nat) :
    ∀ (vs : List Nat) (st : KState), vs.Nodup →
      (processSuccs lvl st vs).queue =
        st.queue ++ vs.filter (fun v => st.indeg v - 1 = 0) := by
  intro vs
  induction vs with
  | nil => intro st _; simp [processSuccs]
  | cons v vs ih =>
    intro st hnd
    have hvn : v ∉ vs := (List.nodup_cons.mp hnd).1
    rw [processSuccs, ih _ (List.nodup_cons.mp hnd).2, processOne_queue]
    have hfeq : vs.filter (fun w =>
        decide ((processOne lvl st v).indeg w - 1 = 0)) =
        vs.filter (fun w => decide (st.indeg w - 1 = 0)) := by
      apply List.filter_congr
      intro w hw
      have hwv : w ≠ v := fun h => hvn (h ▸ hw)
      rw [processOne_indeg, if_neg hwv]
    rw [hfeq, List.append_assoc]
    congr 1
    rw [List.filter_cons]
    by_cases h : st.indeg v - 1 = 0
    · simp [h]
    · simp [h]

/-! ## C6 / C7 — leveling: termination measure and the fueled loop -/

/-- Helper: one successor update never increases the measure (the updated
node being in range). -/
theorem processOne_muK_le (luts : List LutInfo) (lvl : Nat) (st : KState)
    (v : Nat) (hv : v < luts.length) :
    muK luts (processOne lvl st v) ≤ muK luts st := by
  unfold muK
  have hmem : v ∈ Finset.range luts.length := Finset.mem_range.mpr hv
  have hcomp : ∀ w, ((processOne lvl st v).indeg w).toNat =
      Function.update (fun x => (st.indeg x).toNat) v
        (st.indeg v - 1).toNat w := by
    intro w
    rw [processOne_indeg, Function.update_apply, apply_ite Int.toNat]
  have hsum : (∑ w ∈ Finset.range luts.length,
      ((processOne lvl st v).indeg w).toNat) =
      (st.indeg v - 1).toNat +
        ∑ w ∈ (Finset.range luts.length).erase v, (st.indeg w).toNat := by
    rw [Finset.sum_congr rfl (fun w _ => hcomp w),
      Finset.sum_update_of_mem hmem, Finset.sdiff_singleton_eq_erase]
  have hsum2 : (∑ w ∈ Finset.range luts.length, (st.indeg w).toNat) =
      (st.indeg v).toNat +
        ∑ w ∈ (Finset.range luts.length).erase v, (st.indeg w).toNat :=
    (Finset.add_sum_erase _ (fun w => (st.indeg w).toNat) hmem).symm
  rw [hsum, hsum2, processOne_queue]
  split_ifs with h
  · simp only [List.length_append, List.length_singleton]
    omega
  · simp only [List.append_nil]
    omega

/-- Helper: successor processing never increases the measure. -/
theorem processSuccs_muK_le (luts : List LutInfo) (lvl : Nat) :
    ∀ (vs : List Nat) (st : KState), (∀ v ∈ vs, v < luts.length) →
      muK luts (processSuccs lvl st vs) ≤ muK luts st := by
  intro vs
  induction vs with
  | nil => intro st _; exact Nat.le_refl _
  | cons v vs ih =>
    intro st hlt
    rw [processSuccs]
    exact Nat.le_trans
      (ih _ (fun w hw => hlt w (List.mem_cons_of_mem v hw)))
      (processOne_muK_le luts lvl st v (hlt v (List.mem_cons_self v vs)))

/-- Helper: one loop iteration strictly decreases the measure. -/
theorem kahnStep_muK_lt (luts : List LutInfo) (st : KState) (u : Nat)
    (rest : List Nat) (hq : st.queue = u :: rest) :
    muK luts (kahnStep luts st u rest) < muK luts st := by
  unfold kahnStep
  have hle := processSuccs_muK_le luts ((st.level u).getD 0) (succsOf luts u)
    { st with queue := rest, dequeued := st.dequeued ++ [u] }
    (fun v hv => ((mem_succsOf luts u v).mp hv).1)
  apply Nat.lt_of_le_of_lt hle
  unfold muK
  simp only
  rw [hq]
  simp

/-- Helper: with fuel at least the measure, the loop empties the queue. -/
theorem kahnLoopF_queue_nil (luts : List LutInfo) :
    ∀ (fuel : Nat) (st : KState), muK luts st ≤ fuel →
      (kahnLoopF luts fuel st).queue = [] := by
  intro fuel
  induction fuel with
  | zero =>
    intro st h
    have : st.queue.length = 0 := by
      unfold muK at h
      omega
    rw [kahnLoopF]
    exact List.length_eq_zero.mp this
  | succ fuel ih =>
    intro st h
    rw [kahnLoopF]
    rcases hq : st.queue with _ | ⟨u, rest⟩
    · exact hq
    · exact ih _ (by
        have := kahnStep_muK_lt luts st u rest hq
        omega)

/-- Helper: the loop preserves any property preserved by its step. -/
theorem kahnLoopF_inv (luts : List LutInfo)
    (P : KState → Prop)
    (hstep : ∀ st u rest, st.queue = u :: rest → P st →
      P (kahnStep luts st u rest)) :
    ∀ (fuel : Nat) (st : KState), P st → P (kahnLoopF luts fuel st) := by
  intro fuel
  induction fuel with
  | zero => intro st h; exact h
  | succ fuel ih =>
    intro st h
    rw [kahnLoopF]
    rcases hq : st.queue with _ | ⟨u, rest⟩
    · exact h
    · exact ih _ (hstep st u rest hq h)

/-- Helper: filtering out the freshly processed node drops the unprocessed
count by exactly one. -/
theorem length_filter_snoc_dequeued (dq : List Nat) (u : Nat) :
    ∀ (l : List Nat), l.Nodup → u ∈ l → u ∉ dq →
      (l.filter (fun x => decide (x ∉ dq ++ [u]))).length + 1 =
        (l.filter (fun x => decide (x ∉ dq))).length := by
  intro l
  induction l with
  | nil => intro _ h; cases h
  | cons x xs ih =>
    intro hnd hul hudq
    have hxs_nd := (List.nodup_cons.mp hnd).2
    have hxnxs := (List.nodup_cons.mp hnd).1
    rw [List.filter_cons, List.filter_cons]
    by_cases hxu : x = u
    · subst hxu
      have h1 : (decide (x ∉ dq ++ [x])) = false := by
        simp
      have h2 : (decide (x ∉ dq)) = true := by
        simpa using hudq
      rw [h1, h2]
      have hcong : xs.filter (fun y => decide (y ∉ dq ++ [x])) =
          xs.filter (fun y => decide (y ∉ dq)) := by
        apply List.filter_congr
        intro y hy
        have hyx : y ≠ x := fun h => hxnxs (h ▸ hy)
        simp only [decide_eq_decide, List.mem_append, List.mem_singleton]
        constructor
        · intro h h2
          exact h (Or.inl h2)
        · intro h h2
          rcases h2 with h2 | h2
          · exact h h2
          · exact hyx h2
      rw [hcong]
      simp
    · have hul2 : u ∈ xs := by
        rcases List.mem_cons.mp hul with h | h
        · exact absurd h.symm hxu
        · exact h
      have hiff : (decide (x ∉ dq ++ [u])) = (decide (x ∉ dq)) := by
        simp only [decide_eq_decide, List.mem_append, List.mem_singleton]
        constructor
        · intro h h2
          exact h (Or.inl h2)
        · intro h h2
          rcases h2 with h2 | h2
          · exact h h2
          · exact hxu h2
      rw [hiff]
      by_cases hx : x ∈ dq
      · have : (decide (x ∉ dq)) = false := by simpa using hx
        rw [this]
        exact ih hxs_nd hul2 hudq
      · have hxd : (decide (x ∉ dq)) = true := by simpa using hx
        have hihe := ih hxs_nd hul2 hudq
        rw [hxd]
        show (x :: xs.filter (fun y => decide (y ∉ dq ++ [u]))).length + 1 =
          (x :: xs.filter (fun y => decide (y ∉ dq))).length
        simp only [List.length_cons]
        omega

/-- Helper: a duplicate-free list of length at least 2 has an element
different from any given member. -/
theorem exists_ne_of_two_le_length (l : List Nat) (hnd : l.Nodup) (x : Nat)
    (h2 : 2 ≤ l.length) : ∃ y ∈ l, y ≠ x := by
  rcases l with _ | ⟨a, l⟩
  · simp at h2
  rcases l with _ | ⟨b, t⟩
  · simp at h2
  by_cases hax : a = x
  · refine ⟨b, List.mem_cons_of_mem a (List.mem_cons_self b t), ?_⟩
    intro hbx
    have := (List.nodup_cons.mp hnd).1
    rw [hax, ← hbx] at this
    exact this (List.mem_cons_self b t)
  · exact ⟨a, List.mem_cons_self a _, hax⟩

/-- Helper: one Kahn iteration preserves the loop invariant. -/
theorem kinv_step (luts : List LutInfo) (st : KState) (u : Nat)
    (rest : List Nat) (hq : st.queue = u :: rest) (inv : KInv luts st) :
    KInv luts (kahnStep luts st u rest) := by
  have humem : u ∈ st.queue := by rw [hq]; exact List.mem_cons_self u rest
  have hu_lt : u < luts.length := inv.q_lt u humem
  have hu_ndq : u ∉ st.dequeued := inv.q_dq u humem
  have hu_ready : ∀ p ∈ predsOf luts u, p ∈ st.dequeued := inv.q_ready u humem
  obtain ⟨Lu, hLu, hLuLong⟩ := inv.level_done u (Or.inr humem)
  have hqnd := inv.q_nodup
  rw [hq] at hqnd
  have hrest_nodup : rest.Nodup := (List.nodup_cons.mp hqnd).2
  have hu_nrest : u ∉ rest := (List.nodup_cons.mp hqnd).1
  have hsnd := succsOf_nodup luts u
  have hlvlLu : (st.level u).getD 0 = Lu := by rw [hLu]; rfl
  have hstep : kahnStep luts st u rest =
      processSuccs ((st.level u).getD 0)
        { st with queue := rest, dequeued := st.dequeued ++ [u] }
        (succsOf luts u) := rfl
  rw [hstep]
  set lvl := (st.level u).getD 0 with hlvldef
  set st2 : KState :=
    { st with queue := rest, dequeued := st.dequeued ++ [u] } with hst2
  set res := processSuccs lvl st2 (succsOf luts u) with hres
  have hres_dq : res.dequeued = st.dequeued ++ [u] := by
    rw [hres, processSuccs_dequeued]
  have hres_q : res.queue =
      rest ++ (succsOf luts u).filter (fun v => decide (st.indeg v - 1 = 0)) :=
    processSuccs_queue lvl (succsOf luts u) st2 hsnd
  have hres_level : ∀ w, res.level w =
      if w ∈ succsOf luts u then updLevel lvl (st.level w) else st.level w :=
    fun w => processSuccs_level lvl (succsOf luts u) st2 hsnd w
  have hres_indeg : ∀ w, res.indeg w =
      if w ∈ succsOf luts u then st.indeg w - 1 else st.indeg w :=
    fun w => processSuccs_indeg lvl (succsOf luts u) st2 hsnd w
  have hsucc_pred : ∀ v ∈ succsOf luts u, u ∈ predsOf luts v :=
    fun v hv => ((mem_succsOf luts u v).mp hv).2
  have hsucc_lt : ∀ v ∈ succsOf luts u, v < luts.length :=
    fun v hv => ((mem_succsOf luts u v).mp hv).1
  have hsucc_ndq : ∀ v ∈ succsOf luts u, v ∉ st.dequeued :=
    fun v hv h => hu_ndq (inv.dq_closed v h u (hsucc_pred v hv))
  have hsucc_nq : ∀ v ∈ succsOf luts u, v ∉ st.queue :=
    fun v hv h => hu_ndq (inv.q_ready v h u (hsucc_pred v hv))
  have hsucc_ne_u : ∀ v ∈ succsOf luts u, v ≠ u :=
    fun v hv he => (hsucc_nq v hv) (he ▸ humem)
  have hu_nsucc : u ∉ succsOf luts u := fun h => (hsucc_ne_u u h) rfl
  have hsucc_nrest : ∀ v ∈ succsOf luts u, v ∉ rest :=
    fun v hv h => (hsucc_nq v hv) (by rw [hq]; exact List.mem_cons_of_mem u h)
  have hmem_dq2 : ∀ x, x ∈ st.dequeued ++ [u] ↔ x ∈ st.dequeued ∨ x = u := by
    intro x
    rw [List.mem_append, List.mem_singleton]
  have hdq_nsucc : ∀ w ∈ st.dequeued, w ∉ succsOf luts u :=
    fun w hw hs => (hsucc_ndq w hs) hw
  have hrest_nsucc : ∀ w ∈ rest, w ∉ succsOf luts u :=
    fun w hw hs => (hsucc_nrest w hs) hw
  have hlevel_u : res.level u = some Lu := by
    rw [hres_level u, if_neg hu_nsucc, hLu]
  have hnpred_of_nsucc : ∀ w, w ∉ succsOf luts u → u ∉ predsOf luts w := by
    intro w hw hp
    by_cases hwlt : w < luts.length
    · exact hw ((mem_succsOf luts u w).mpr ⟨hwlt, hp⟩)
    · rw [predsOf_ge_nil luts w (Nat.le_of_not_lt hwlt)] at hp
      cases hp
  have hq_new_ready : ∀ w ∈ succsOf luts u, st.indeg w - 1 = 0 →
      ∀ p ∈ predsOf luts w, p ∈ st.dequeued ++ [u] := by
    intro w hw hdeg p hp
    have hindeg := inv.indeg_eq w
    have hlen1 : ((predsOf luts w).filter
        (fun x => decide (x ∉ st.dequeued))).length = 1 := by omega
    have humemf : u ∈ (predsOf luts w).filter
        (fun x => decide (x ∉ st.dequeued)) :=
      List.mem_filter.mpr ⟨hsucc_pred w hw, by simpa using hu_ndq⟩
    obtain ⟨a, ha⟩ := List.length_eq_one.mp hlen1
    rw [ha, List.mem_singleton] at humemf
    by_cases hpd : p ∈ st.dequeued
    · exact (hmem_dq2 p).mpr (Or.inl hpd)
    · have hpf : p ∈ (predsOf luts w).filter
          (fun x => decide (x ∉ st.dequeued)) :=
        List.mem_filter.mpr ⟨hp, by simpa using hpd⟩
      rw [ha, List.mem_singleton] at hpf
      exact (hmem_dq2 p).mpr (Or.inr (hpf.trans humemf.symm))
  refine ⟨?_, ?_, ?_, ?_, ?_, ?_, ?_, ?_, ?_, ?_, ?_⟩
  · -- dq_nodup
    rw [hres_dq]
    refine List.Nodup.append inv.dq_nodup (List.nodup_singleton u) ?_
    intro a ha hb
    rw [List.mem_singleton] at hb
    subst hb
    exact hu_ndq ha
  · -- dq_lt
    rw [hres_dq]
    intro v hv
    rcases (hmem_dq2 v).mp hv with h | rfl
    · exact inv.dq_lt v h
    · exact hu_lt
  · -- q_nodup
    rw [hres_q]
    refine List.Nodup.append hrest_nodup (hsnd.filter _) ?_
    intro a ha hb
    have := List.mem_of_mem_filter hb
    exact (hsucc_nrest a this) ha
  · -- q_lt
    rw [hres_q]
    intro v hv
    rcases List.mem_append.mp hv with h | h
    · exact inv.q_lt v (by rw [hq]; exact List.mem_cons_of_mem u h)
    · exact hsucc_lt v (List.mem_of_mem_filter h)
  · -- q_dq
    rw [hres_q, hres_dq]
    intro v hv hvd
    rcases (hmem_dq2 v).mp hvd with hvd2 | rfl
    · rcases List.mem_append.mp hv with h | h
      · exact inv.q_dq v (by rw [hq]; exact List.mem_cons_of_mem u h) hvd2
      · exact hsucc_ndq v (List.mem_of_mem_filter h) hvd2
    · rcases List.mem_append.mp hv with h | h
      · exact hu_nrest h
      · exact hu_nsucc (List.mem_of_mem_filter h)
  · -- dq_closed
    rw [hres_dq]
    intro v hv p hp
    rcases (hmem_dq2 v).mp hv with h | rfl
    · exact (hmem_dq2 p).mpr (Or.inl (inv.dq_closed v h p hp))
    · exact (hmem_dq2 p).mpr (Or.inl (hu_ready p hp))
  · -- q_ready
    rw [hres_q, hres_dq]
    intro v hv p hp
    rcases List.mem_append.mp hv with h | h
    · exact (hmem_dq2 p).mpr (Or.inl
        (inv.q_ready v (by rw [hq]; exact List.mem_cons_of_mem u h) p hp))
    · have hm := List.mem_filter.mp h
      exact hq_new_ready v hm.1 (by simpa using hm.2) p hp
  · -- indeg_eq
    rw [hres_dq]
    intro w
    rw [hres_indeg w]
    by_cases hw : w ∈ succsOf luts u
    · rw [if_pos hw]
      have hlem := length_filter_snoc_dequeued st.dequeued u (predsOf luts w)
        (predsOf_nodup luts w) (hsucc_pred w hw) hu_ndq
      have hindeg := inv.indeg_eq w
      omega
    · rw [if_neg hw]
      have hnu := hnpred_of_nsucc w hw
      have hcong : (predsOf luts w).filter
          (fun x => decide (x ∉ st.dequeued ++ [u])) =
          (predsOf luts w).filter (fun x => decide (x ∉ st.dequeued)) := by
        apply List.filter_congr
        intro y hy
        have hyu : y ≠ u := fun h => hnu (h ▸ hy)
        simp only [decide_eq_decide, List.mem_append, List.mem_singleton]
        constructor
        · intro h h2
          exact h (Or.inl h2)
        · intro h h2
          rcases h2 with h2 | h2
          · exact h h2
          · exact hyu h2
      rw [hcong]
      exact inv.indeg_eq w
  · -- hasPending
    rw [hres_q, hres_dq]
    intro w hwlt hwdq2 hwq2
    have hwdq : w ∉ st.dequeued := fun h => hwdq2 ((hmem_dq2 w).mpr (Or.inl h))
    have hwu : w ≠ u := fun h => hwdq2 ((hmem_dq2 w).mpr (Or.inr h))
    have hwrest : w ∉ rest := fun h => hwq2 (List.mem_append_left _ h)
    have hwfilter : w ∉ (succsOf luts u).filter
        (fun v => decide (st.indeg v - 1 = 0)) :=
      fun h => hwq2 (List.mem_append_right _ h)
    have hwstq : w ∉ st.queue := by
      rw [hq]
      intro h
      rcases List.mem_cons.mp h with h | h
      · exact hwu h
      · exact hwrest h
    obtain ⟨p, hp, hpdq⟩ := inv.hasPending w hwlt hwdq hwstq
    by_cases hpu : p = u
    · have hup : u ∈ predsOf luts w := hpu ▸ hp
      have hwsucc : w ∈ succsOf luts u :=
        (mem_succsOf luts u w).mpr ⟨hwlt, hup⟩
      have hdeg : ¬ (st.indeg w - 1 = 0) := by
        intro h
        exact hwfilter (List.mem_filter.mpr ⟨hwsucc, by simpa using h⟩)
      have hindeg := inv.indeg_eq w
      have hmemf : u ∈ (predsOf luts w).filter
          (fun x => decide (x ∉ st.dequeued)) :=
        List.mem_filter.mpr ⟨hup, by simpa using hu_ndq⟩
      have h1 : 0 < ((predsOf luts w).filter
          (fun x => decide (x ∉ st.dequeued))).length :=
        List.length_pos_of_mem hmemf
      have hlen2 : 2 ≤ ((predsOf luts w).filter
          (fun x => decide (x ∉ st.dequeued))).length := by
        omega
      obtain ⟨y, hyf, hyu⟩ := exists_ne_of_two_le_length _
        ((predsOf_nodup luts w).filter _) u hlen2
      have hym := List.mem_filter.mp hyf
      refine ⟨y, hym.1, ?_⟩
      intro hy2
      rcases (hmem_dq2 y).mp hy2 with h | h
      · exact (by simpa using hym.2 : y ∉ st.dequeued) h
      · exact hyu h
    · refine ⟨p, hp, ?_⟩
      intro hp2
      rcases (hmem_dq2 p).mp hp2 with h | h
      · exact hpdq h
      · exact hpu h
  · -- level_done
    rw [hres_dq, hres_q]
    intro w hw
    rcases hw with hw | hw
    · rcases (hmem_dq2 w).mp hw with h | rfl
      · rw [hres_level w, if_neg (hdq_nsucc w h)]
        exact inv.level_done w (Or.inl h)
      · rw [hres_level w, if_neg hu_nsucc]
        exact inv.level_done w (Or.inr humem)
    · rcases List.mem_append.mp hw with h | h
      · rw [hres_level w, if_neg (hrest_nsucc w h)]
        exact inv.level_done w
          (Or.inr (by rw [hq]; exact List.mem_cons_of_mem u h))
      · have hm := List.mem_filter.mp h
        have hwsucc := hm.1
        have hdeg : st.indeg w - 1 = 0 := by simpa using hm.2
        have hwready := hq_new_ready w hwsucc hdeg
        have hwdq := hsucc_ndq w hwsucc
        have hwnq := hsucc_nq w hwsucc
        have hwlt := hsucc_lt w hwsucc
        rw [hres_level w, if_pos hwsucc]
        rcases inv.level_partial w hwlt hwdq hwnq with
          ⟨hnone, hallndq⟩ | ⟨M, hM, hM1, hub, p0, hp0, hp0dq, hp0lvl⟩
        · have hpredu : ∀ p ∈ predsOf luts w, p = u := by
            intro p hp
            rcases (hmem_dq2 p).mp (hwready p hp) with h2 | h2
            · exact absurd h2 (hallndq p hp)
            · exact h2
          rw [hnone]
          refine ⟨lvl + 1, rfl, ?_, ?_⟩
          · have := ChainToP.step (hsucc_pred w hwsucc) hLuLong.1
            rw [hlvlLu]
            exact this
          · intro k hk
            cases hk with
            | base => omega
            | step he hc =>
              rename_i p k2
              rw [hpredu p he] at hc
              have := hLuLong.2 k2 hc
              rw [hlvlLu]
              omega
        · rw [hM]
          by_cases hcmp : M < lvl + 1
          · refine ⟨lvl + 1, by rw [show updLevel lvl (some M) =
              if M < lvl + 1 then some (lvl + 1) else some M from rfl,
              if_pos hcmp], ?_, ?_⟩
            · have := ChainToP.step (hsucc_pred w hwsucc) hLuLong.1
              rw [hlvlLu]
              exact this
            · intro k hk
              cases hk with
              | base => omega
              | step he hc =>
                rename_i p k2
                rcases (hmem_dq2 p).mp (hwready p he) with h2 | h2
                · obtain ⟨Lp, hLp, hLpLong⟩ := inv.level_done p (Or.inl h2)
                  have hb := hub p he h2 Lp hLp
                  have := hLpLong.2 k2 hc
                  omega
                · subst h2
                  have := hLuLong.2 k2 hc
                  rw [hlvlLu]
                  omega
          · refine ⟨M, by rw [show updLevel lvl (some M) =
              if M < lvl + 1 then some (lvl + 1) else some M from rfl,
              if_neg hcmp], ?_, ?_⟩
            · obtain ⟨Lp0, hLp0, hLp0Long⟩ := inv.level_done p0 (Or.inl hp0dq)
              have hLp0M : Lp0 = M - 1 := by
                rw [hLp0] at hp0lvl
                exact Option.some.inj hp0lvl
              have hchain := ChainToP.step hp0 hLp0Long.1
              rw [hLp0M] at hchain
              have hMM : M - 1 + 1 = M := by omega
              rw [hMM] at hchain
              exact hchain
            · intro k hk
              cases hk with
              | base => omega
              | step he hc =>
                rename_i p k2
                rcases (hmem_dq2 p).mp (hwready p he) with h2 | h2
                · obtain ⟨Lp, hLp, hLpLong⟩ := inv.level_done p (Or.inl h2)
                  have hb := hub p he h2 Lp hLp
                  have := hLpLong.2 k2 hc
                  omega
                · subst h2
                  have := hLuLong.2 k2 hc
                  rw [hlvlLu] at hcmp
                  omega
  · -- level_partial
    rw [hres_dq, hres_q]
    intro w hwlt hwdq2 hwq2
    have hwdq : w ∉ st.dequeued := fun h => hwdq2 ((hmem_dq2 w).mpr (Or.inl h))
    have hwu : w ≠ u := fun h => hwdq2 ((hmem_dq2 w).mpr (Or.inr h))
    have hwrest : w ∉ rest := fun h => hwq2 (List.mem_append_left _ h)
    have hwfilter : w ∉ (succsOf luts u).filter
        (fun v => decide (st.indeg v - 1 = 0)) :=
      fun h => hwq2 (List.mem_append_right _ h)
    have hwstq : w ∉ st.queue := by
      rw [hq]
      intro h
      rcases List.mem_cons.mp h with h | h
      · exact hwu h
      · exact hwrest h
    by_cases hwsucc : w ∈ succsOf luts u
    · have hwready0 : u ∈ predsOf luts w := hsucc_pred w hwsucc
      rcases inv.level_partial w hwlt hwdq hwstq with
        ⟨hnone, hallndq⟩ | ⟨M, hM, hM1, hub, p0, hp0, hp0dq, hp0lvl⟩
      · refine Or.inr ⟨lvl + 1, ?_, by omega, ?_, ?_⟩
        · rw [hres_level w, if_pos hwsucc, hnone]
          rfl
        · intro p hp hpd2 Lp hLp
          rcases (hmem_dq2 p).mp hpd2 with h2 | h2
          · exact absurd h2 (hallndq p hp)
          · subst h2
            rw [hlevel_u] at hLp
            have h3 : Lu = Lp := Option.some.inj hLp
            omega
        · refine ⟨u, hwready0, (hmem_dq2 u).mpr (Or.inr rfl), ?_⟩
          rw [hlevel_u]
          congr 1
          omega
      · refine Or.inr ⟨if M < lvl + 1 then lvl + 1 else M, ?_, by
          split_ifs <;> omega, ?_, ?_⟩
        · rw [hres_level w, if_pos hwsucc, hM]
          rw [show updLevel lvl (some M) =
            if M < lvl + 1 then some (lvl + 1) else some M from rfl]
          rw [apply_ite some]
        · intro p hp hpd2 Lp hLp
          rcases (hmem_dq2 p).mp hpd2 with h2 | h2
          · have hpns : p ∉ succsOf luts u := hdq_nsucc p h2
            rw [hres_level p, if_neg hpns] at hLp
            have hb := hub p hp h2 Lp hLp
            split_ifs <;> omega
          · subst h2
            rw [hlevel_u] at hLp
            have h3 : Lu = Lp := Option.some.inj hLp
            split_ifs <;> omega
        · by_cases hcmp : M < lvl + 1
          · refine ⟨u, hwready0, (hmem_dq2 u).mpr (Or.inr rfl), ?_⟩
            rw [hlevel_u, if_pos hcmp]
            congr 1
            rw [hlvlLu]
            omega
          · refine ⟨p0, hp0, (hmem_dq2 p0).mpr (Or.inl hp0dq), ?_⟩
            have hp0ns : p0 ∉ succsOf luts u := hdq_nsucc p0 hp0dq
            rw [hres_level p0, if_neg hp0ns, hp0lvl, if_neg hcmp]
    · rw [hres_level w, if_neg hwsucc]
      have hnu := hnpred_of_nsucc w hwsucc
      rcases inv.level_partial w hwlt hwdq hwstq with
        ⟨hnone, hallndq⟩ | ⟨M, hM, hM1, hub, p0, hp0, hp0dq, hp0lvl⟩
      · refine Or.inl ⟨hnone, ?_⟩
        intro p hp hpd2
        rcases (hmem_dq2 p).mp hpd2 with h2 | h2
        · exact (hallndq p hp) h2
        · exact hnu (h2 ▸ hp)
      · refine Or.inr ⟨M, hM, hM1, ?_, ?_⟩
        · intro p hp hpd2 Lp hLp
          rcases (hmem_dq2 p).mp hpd2 with h2 | h2
          · have hpns : p ∉ succsOf luts u := hdq_nsucc p h2
            rw [hres_level p, if_neg hpns] at hLp
            exact hub p hp h2 Lp hLp
          · exact absurd (h2 ▸ hp) hnu
        · refine ⟨p0, hp0, (hmem_dq2 p0).mpr (Or.inl hp0dq), ?_⟩
          have hp0ns : p0 ∉ succsOf luts u := hdq_nsucc p0 hp0dq
          rw [hres_level p0, if_neg hp0ns]
          exact hp0lvl

/-- Helper: the initial Kahn state satisfies the invariant. -/
theorem kinv_init (luts : List LutInfo) : KInv luts (initKState luts) := by
  have hqmem : ∀ v, v ∈ (initKState luts).queue ↔
      v < luts.length ∧ (predsOf luts v).length = 0 := by
    intro v
    show v ∈ (List.range luts.length).filter _ ↔ _
    rw [List.mem_filter, List.mem_range]
    simp
  refine ⟨List.nodup_nil, ?_, ?_, ?_, ?_, ?_, ?_, ?_, ?_, ?_, ?_⟩
  · intro v hv
    cases hv
  · exact (List.nodup_range _).filter _
  · intro v hv
    exact ((hqmem v).mp hv).1
  · intro v _ hv
    cases hv
  · intro v hv
    cases hv
  · intro v hv p hp
    have hnil : predsOf luts v = [] :=
      List.length_eq_zero.mp ((hqmem v).mp hv).2
    rw [hnil] at hp
    cases hp
  · intro v
    show ((predsOf luts v).length : Int) = _
    congr 1
    rw [List.filter_eq_self.mpr]
    intro a _
    simp [initKState]
  · intro v hvlt _ hvq
    have hne : (predsOf luts v).length ≠ 0 := by
      intro h
      exact hvq ((hqmem v).mpr ⟨hvlt, h⟩)
    have : ∃ p, p ∈ predsOf luts v := by
      rcases hpe : predsOf luts v with _ | ⟨p, ps⟩
      · rw [hpe] at hne
        simp at hne
      · exact ⟨p, List.mem_cons_self p ps⟩
    obtain ⟨p, hp⟩ := this
    exact ⟨p, hp, fun h => by cases h⟩
  · intro v hv
    rcases hv with hv | hv
    · cases hv
    · have hvp := (hqmem v).mp hv
      refine ⟨0, ?_, ChainToP.base v, ?_⟩
      · show (if v < luts.length ∧ (predsOf luts v).length = 0
          then some 0 else none) = some 0
        rw [if_pos hvp]
      · intro k hk
        cases hk with
        | base => exact Nat.le_refl 0
        | step he _ =>
          rw [List.length_eq_zero.mp hvp.2] at he
          cases he
  · intro v hvlt _ hvq
    refine Or.inl ⟨?_, fun p _ h => by cases h⟩
    show (if v < luts.length ∧ (predsOf luts v).length = 0
      then some 0 else none) = none
    rw [if_neg]
    intro h
    exact hvq ((hqmem v).mpr h)

/-- Helper: the whole run keeps the invariant. -/
theorem kahnRun_inv (luts : List LutInfo) : KInv luts (kahnRun luts) :=
  kahnLoopF_inv luts (KInv luts)
    (fun st u rest hq hinv => kinv_step luts st u rest hq hinv)
    (kahnFuel luts) (initKState luts) (kinv_init luts)

/-- Helper: the run's queue is empty (the loop terminates by emptying
it). -/
theorem kahnRun_queue_nil (luts : List LutInfo) :
    (kahnRun luts).queue = [] := by
  apply kahnLoopF_queue_nil
  unfold muK kahnFuel initKState
  simp only [Int.toNat_natCast]
  have := List.length_filter_le
    (fun v => decide ((predsOf luts v).length = 0)) (List.range luts.length)
  rw [List.length_range] at this
  omega

/-- Helper: on an acyclic dependency graph, every LUT gets dequeued. -/
theorem kahnRun_complete (luts : List LutInfo)
    (hacy : ∀ v, Acc (depEdge luts) v) :
    ∀ v, v < luts.length → v ∈ (kahnRun luts).dequeued := by
  have hmain : ∀ v, Acc (depEdge luts) v → v < luts.length →
      v ∈ (kahnRun luts).dequeued := by
    intro v hv
    induction hv with
    | intro x hx ih =>
      intro hxlt
      by_contra hnd
      obtain ⟨p, hp, hpd⟩ := (kahnRun_inv luts).hasPending x hxlt hnd
        (by rw [kahnRun_queue_nil]; exact List.not_mem_nil x)
      have hedge := mem_predsOf_depEdge luts p x hp
      exact hpd (ih p hedge hedge.1)
  exact fun v hv => hmain v (hacy v) hv

/-- C6: on a cycle-free LUT dependency graph (with the canonical outputs
pairwise distinct, as produced by a well-formed netlist), leveling assigns
every LUT a level equal to the length of the longest dependency chain
ending at it, and every dependency edge strictly increases the level. -/
theorem leveling_longest_chain (luts : List LutInfo)
    (hout : luts.Pairwise (fun a b => a.output ≠ b.output))
    (hacy : ∀ v, Acc (depEdge luts) v) :
    (∀ v, v < luts.length → ∃ L, (kahnRun luts).level v = some L ∧
      ChainTo luts v L ∧ (∀ k, ChainTo luts v k → k ≤ L)) ∧
    (∀ u v Lu Lv, depEdge luts u v → (kahnRun luts).level u = some Lu →
      (kahnRun luts).level v = some Lv → Lu < Lv) := by
  have hgetd : ∀ (i : Nat) (hi : i < luts.length),
      luts.getD i default = luts[i] := by
    intro i hi
    rw [List.getD_eq_getElem?_getD, List.getElem?_eq_getElem hi]
    rfl
  have houti : ∀ i j, i < luts.length → j < luts.length →
      (luts.getD i default).output = (luts.getD j default).output → i = j := by
    intro i j hi hj heq
    by_contra hne
    have hpw := List.pairwise_iff_getElem.mp hout
    rcases Nat.lt_or_ge i j with hij | hij
    · have := hpw i j hi hj hij
      rw [hgetd i hi, hgetd j hj] at heq
      exact this heq
    · have hji : j < i := by omega
      have := hpw j i hj hi hji
      rw [hgetd i hi, hgetd j hj] at heq
      exact this heq.symm
  constructor
  · intro v hvlt
    have hvdq := kahnRun_complete luts hacy v hvlt
    obtain ⟨L, hL, hchain, hbound⟩ :=
      (kahnRun_inv luts).level_done v (Or.inl hvdq)
    refine ⟨L, hL, ?_, ?_⟩
    · exact (chainToP_iff_chainTo luts houti v L).mp hchain
    · intro k hk
      exact hbound k ((chainToP_iff_chainTo luts houti v k).mpr hk)
  · intro u v Lu Lv hedge hLu hLv
    have hvdq := kahnRun_complete luts hacy v hedge.2.1
    obtain ⟨Lv2, hLv2, hchainv, hboundv⟩ :=
      (kahnRun_inv luts).level_done v (Or.inl hvdq)
    have hudq := kahnRun_complete luts hacy u hedge.1
    obtain ⟨Lu2, hLu2, hchainu, _⟩ :=
      (kahnRun_inv luts).level_done u (Or.inl hudq)
    rw [hLu] at hLu2
    rw [hLv] at hLv2
    have h1 : Lu = Lu2 := Option.some.inj hLu2
    have h2 : Lv = Lv2 := Option.some.inj hLv2
    have hstep := ChainToP.step (depEdge_mem_predsOf luts houti u v hedge)
      hchainu
    have := hboundv (Lu2 + 1) hstep
    omega

/-- Witness for C6 at the concrete two-LUT chain `lutsAcyc`. -/
theorem leveling_longest_chain_witness :
    ∃ L, (kahnRun lutsAcyc).level 1 = some L ∧
      ChainTo lutsAcyc 1 L ∧ (∀ k, ChainTo lutsAcyc 1 k → k ≤ L) := by
  have hacy : ∀ v, Acc (depEdge lutsAcyc) v := by
    have a0 : Acc (depEdge lutsAcyc) 0 := by
      refine Acc.intro 0 (fun y hy => ?_)
      rcases hy with ⟨hy1, _, hy3⟩
      have hyb : y < 2 := by simpa [lutsAcyc] using hy1
      interval_cases y <;> exact absurd hy3 (by decide)
    have a1 : Acc (depEdge lutsAcyc) 1 := by
      refine Acc.intro 1 (fun y hy => ?_)
      rcases hy with ⟨hy1, _, hy3⟩
      have hyb : y < 2 := by simpa [lutsAcyc] using hy1
      interval_cases y
      · exact a0
      · exact absurd hy3 (by decide)
    intro v
    match v with
    | 0 => exact a0
    | 1 => exact a1
    | (n + 2) =>
      refine Acc.intro _ (fun y hy => ?_)
      have := hy.2.1
      simp [lutsAcyc] at this
  exact (leveling_longest_chain lutsAcyc (by decide) hacy).1 1 (by decide)

/-- C7 counterexample: on the feedback design `lutsCyc`, LUT 2 is never
dequeued (residual of the cycle), yet it receives the partially propagated
level 1 — not the default 0 — and stays in the level-1 pairing bucket
instead of being excluded. -/
theorem cycle_residual_not_excluded :
    levelingWarning lutsCyc = true ∧
    2 ∉ (kahnRun lutsCyc).dequeued ∧
    (kahnRun lutsCyc).level 2 = some 1 ∧
    ¬ (kahnRun lutsCyc).level 2 = some 0 ∧
    2 ∈ levelBucket lutsCyc 1 := by
  decide

/-- C7 (amended): the Kahn queue always terminates with an empty queue
after at most one dequeue per LUT; the residual nodes of a cycle are
detected exactly by the processed count differing from the LUT count and
reported as the (non-fatal) warning; and the pairing partition contains
precisely the LUTs that received some level entry — unvisited nodes with no
level entry are excluded, while unvisited nodes that got a partial level
remain in the partition at that level. -/
theorem leveling_cycle_handling (luts : List LutInfo) :
    (kahnRun luts).queue = [] ∧
    (kahnRun luts).dequeued.length ≤ luts.length ∧
    (levelingWarning luts = true ↔
      ∃ v, v < luts.length ∧ v ∉ (kahnRun luts).dequeued) ∧
    (∀ v, v < luts.length →
      (((kahnRun luts).level v).isSome = true ↔
        ∃ l, v ∈ levelBucket luts l)) := by
  have hnd := (kahnRun_inv luts).dq_nodup
  have hlt := (kahnRun_inv luts).dq_lt
  have hsub : (kahnRun luts).dequeued.toFinset ⊆
      Finset.range luts.length := by
    intro x hx
    exact Finset.mem_range.mpr (hlt x (List.mem_toFinset.mp hx))
  have hcard : (kahnRun luts).dequeued.toFinset.card =
      (kahnRun luts).dequeued.length := List.toFinset_card_of_nodup hnd
  refine ⟨kahnRun_queue_nil luts, ?_, ?_, ?_⟩
  · have := Finset.card_le_card hsub
    rw [hcard, Finset.card_range] at this
    exact this
  · unfold levelingWarning
    rw [decide_eq_true_iff]
    constructor
    · intro hne
      by_contra hno
      push_neg at hno
      have heq : (kahnRun luts).dequeued.toFinset =
          Finset.range luts.length := by
        apply Finset.Subset.antisymm hsub
        intro x hx
        exact List.mem_toFinset.mpr (hno x (Finset.mem_range.mp hx))
      rw [heq, Finset.card_range] at hcard
      exact hne hcard.symm
    · rintro ⟨v, hvlt, hvnd⟩ hlen
      have heq : (kahnRun luts).dequeued.toFinset =
          Finset.range luts.length := by
        apply Finset.eq_of_subset_of_card_le hsub
        rw [hcard, hlen, Finset.card_range]
      have : v ∈ (kahnRun luts).dequeued := by
        rw [← List.mem_toFinset, heq]
        exact Finset.mem_range.mpr hvlt
      exact hvnd this
  · intro v hvlt
    constructor
    · intro hsome
      obtain ⟨l, hl⟩ := Option.isSome_iff_exists.mp hsome
      refine ⟨l, ?_⟩
      unfold levelBucket
      rw [List.mem_map]
      refine ⟨(v, l), ?_, rfl⟩
      rw [List.mem_filter]
      constructor
      · unfold leveledPairs
        rw [List.mem_filterMap]
        exact ⟨v, List.mem_range.mpr hvlt, by rw [hl]; rfl⟩
      · simp
    · rintro ⟨l, hl⟩
      unfold levelBucket at hl
      rw [List.mem_map] at hl
      obtain ⟨⟨v2, l2⟩, hp, hv2⟩ := hl
      rw [List.mem_filter] at hp
      have hp1 := hp.1
      unfold leveledPairs at hp1
      rw [List.mem_filterMap] at hp1
      obtain ⟨i, _, hi2⟩ := hp1
      rcases hmap : (kahnRun luts).level i with _ | li
      · rw [hmap] at hi2
        cases hi2
      · rw [hmap] at hi2
        have : (i, li) = (v2, l2) := by
          simpa using hi2
        cases this
        cases hv2
        rw [hmap]
        rfl

/-- Witness for C7's amended theorem at the concrete cyclic design
`lutsCyc`. -/
theorem leveling_cycle_handling_witness :
    (kahnRun lutsCyc).queue = [] ∧
    (((kahnRun lutsCyc).level 2).isSome = true ↔
      ∃ l, 2 ∈ levelBucket lutsCyc l) := by
  refine ⟨(leveling_cycle_handling lutsCyc).1, ?_⟩
  exact (leveling_cycle_handling lutsCyc).2.2.2 2 (by decide)

end PangoStitcher
